import Mathlib

/-!
# adlist: a generic doubly linked list (`src/adlist.c`, `src/adlist.h`)

Shallow embedding of the list operations over an explicit node memory.

* A C pointer is an `Option Nat`: `none` is `NULL`, `some a` is the address `a`.
* Node memory is a partial map from addresses to `listNode` records; an
  operation that dereferences `NULL` or an address that is not allocated has
  no result (`none`).
* The `list` record is the content of the `struct list` an operation works on;
  an operation that writes to `*list` returns the new content.
* `zmalloc` is an input of the operations that allocate: the pointer it
  returned (`none` when it failed).
* `unsigned long` and `long` are 64 bits wide.
-/

namespace Adlist

/-- A `void *`: `none` is `NULL`. -/
abbrev Ptr := Option Nat

/-- The `struct listNode` of adlist.h. -/
structure listNode where
  prev : Option Nat
  next : Option Nat
  value : Ptr
deriving DecidableEq, Repr

/-- The `struct listIter` of adlist.h. -/
structure listIter where
  next : Option Nat
  direction : Int
deriving DecidableEq, Repr

/-- The `struct list` of adlist.h. The field `match_` is the C field `match`.
The `dup` and `match` hooks are the functions they compute. The `free` hook
returns nothing, so it is kept as the address of the function and each call of
it is recorded in `Mem.calls`; hooks do not write to the node memory. -/
structure list where
  head : Option Nat
  tail : Option Nat
  dup : Option (Ptr → Ptr)
  free : Option Nat
  match_ : Option (Ptr → Ptr → Int)
  len : Nat

/-- Node memory together with the record of the calls made to `free` hooks:
each entry is the function called and the value it was called on. -/
structure Mem where
  nodes : Nat → Option listNode
  calls : List (Nat × Ptr)

/-- Width of `unsigned long` and `long`. -/
def ULONG : Nat := 2 ^ 64

def AL_START_HEAD : Int := 0

def AL_START_TAIL : Int := 1

/-- Write of a whole node at an address. -/
def store (m : Mem) (a : Nat) (n : listNode) : Mem :=
  { m with nodes := fun b => if b = a then some n else m.nodes b }

/-- The block `zmalloc` returned becomes allocated. Its content is unspecified
in C; every field is written before it is read by the callers below. -/
def alloc (m : Mem) (a : Nat) : Mem :=
  store m a { prev := none, next := none, value := none }

/-- The call `zfree(p)` on a node. -/
def zfree (m : Mem) (p : Option Nat) : Mem :=
  match p with
  | none => m
  | some a => { m with nodes := fun b => if b = a then none else m.nodes b }

/-- The read `p->prev`. -/
def getPrev (m : Mem) (p : Option Nat) : Option (Option Nat) := do
  let a ← p
  let n ← m.nodes a
  pure n.prev

/-- The read `p->next`. -/
def getNext (m : Mem) (p : Option Nat) : Option (Option Nat) := do
  let a ← p
  let n ← m.nodes a
  pure n.next

/-- The read `p->value`. -/
def getValue (m : Mem) (p : Option Nat) : Option Ptr := do
  let a ← p
  let n ← m.nodes a
  pure n.value

/-- The write `p->prev = v`. -/
def setPrev (m : Mem) (p : Option Nat) (v : Option Nat) : Option Mem := do
  let a ← p
  let n ← m.nodes a
  pure (store m a { n with prev := v })

/-- The write `p->next = v`. -/
def setNext (m : Mem) (p : Option Nat) (v : Option Nat) : Option Mem := do
  let a ← p
  let n ← m.nodes a
  pure (store m a { n with next := v })

/-- The write `p->value = v`. -/
def setValue (m : Mem) (p : Option Nat) (v : Ptr) : Option Mem := do
  let a ← p
  let n ← m.nodes a
  pure (store m a { n with value := v })

/-- The statement `if (list->free) list->free(v);`. -/
def callFree (m : Mem) (l : list) (v : Ptr) : Mem :=
  match l.free with
  | none => m
  | some f => { m with calls := m.calls ++ [(f, v)] }

/-- Result of an operation that returns `list *`: the memory and the content
of `*list` after the call, and whether the returned pointer is the list that
was passed in (`true`) or `NULL` (`false`). -/
structure Ret where
  mem : Mem
  lst : list
  ok : Bool

/-- The function `listCreate`: `none` is the `NULL` result. -/
def listCreate (zmalloc : Option Nat) : Option list :=
  match zmalloc with
  | none => none
  | some _ =>
    some { head := none, tail := none, len := 0, dup := none, free := none, match_ := none }

/-- The function `listAddNodeHead`. -/
def listAddNodeHead (m : Mem) (l : list) (zmalloc : Option Nat) (value : Ptr) :
    Option Ret :=
  match zmalloc with
  | none => some ⟨m, l, false⟩
  | some a => do
    let node := some a
    let m := alloc m a
    let m ← setValue m node value
    if l.len = 0 then
      let l := { l with head := node, tail := node }
      let m ← setNext m node none
      let m ← setPrev m node none
      pure ⟨m, { l with len := (l.len + 1) % ULONG }, true⟩
    else
      let m ← setPrev m node none
      let m ← setNext m node l.head
      let m ← setPrev m l.head node
      let l := { l with head := node }
      pure ⟨m, { l with len := (l.len + 1) % ULONG }, true⟩

/-- The function `listAddNodeTail`. -/
def listAddNodeTail (m : Mem) (l : list) (zmalloc : Option Nat) (value : Ptr) :
    Option Ret :=
  match zmalloc with
  | none => some ⟨m, l, false⟩
  | some a => do
    let node := some a
    let m := alloc m a
    let m ← setValue m node value
    if l.len = 0 then
      let l := { l with head := node, tail := node }
      let m ← setNext m node none
      let m ← setPrev m node none
      pure ⟨m, { l with len := (l.len + 1) % ULONG }, true⟩
    else
      let m ← setPrev m node l.tail
      let m ← setNext m node none
      let m ← setNext m l.tail node
      let l := { l with tail := node }
      pure ⟨m, { l with len := (l.len + 1) % ULONG }, true⟩

/-- The function `listInsertNode`. -/
def listInsertNode (m : Mem) (l : list) (old_node : Option Nat) (value : Ptr)
    (after : Int) (zmalloc : Option Nat) : Option Ret :=
  match zmalloc with
  | none => some ⟨m, l, false⟩
  | some a => do
    let node := some a
    let m := alloc m a
    let m ← setValue m node value
    let (m, l) ←
      if after ≠ 0 then do
        let m ← setPrev m node old_node
        let m ← setNext m node (← getNext m old_node)
        pure (m, if l.tail = old_node then { l with tail := node } else l)
      else do
        let m ← setNext m node old_node
        let m ← setPrev m node (← getPrev m old_node)
        pure (m, if l.head = old_node then { l with head := node } else l)
    let m ← if (← getPrev m node) ≠ none then setNext m (← getPrev m node) node else pure m
    let m ← if (← getNext m node) ≠ none then setPrev m (← getNext m node) node else pure m
    pure ⟨m, { l with len := (l.len + 1) % ULONG }, true⟩

/-- The function `listDelNode`. -/
def listDelNode (m : Mem) (l : list) (node : Option Nat) : Option (Mem × list) := do
  let (m, l) ←
    if (← getPrev m node) ≠ none then do
      let m ← setNext m (← getPrev m node) (← getNext m node)
      pure (m, l)
    else do
      pure (m, { l with head := (← getNext m node) })
  let (m, l) ←
    if (← getNext m node) ≠ none then do
      let m ← setPrev m (← getNext m node) (← getPrev m node)
      pure (m, l)
    else do
      pure (m, { l with tail := (← getPrev m node) })
  let m := callFree m l (← getValue m node)
  let m := zfree m node
  pure (m, { l with len := (l.len + ULONG - 1) % ULONG })

/-- The function `listRotate`. -/
def listRotate (m : Mem) (l : list) : Option (Mem × list) :=
  let tail := l.tail
  if l.len ≤ 1 then some (m, l)
  else do
    let l := { l with tail := (← getPrev m tail) }
    let m ← setNext m l.tail none
    let m ← setPrev m l.head tail
    let m ← setPrev m tail none
    let m ← setNext m tail l.head
    pure (m, { l with head := tail })

/-- The function `listGetIterator`: `none` is the `NULL` result. -/
def listGetIterator (l : list) (direction : Int) (zmalloc : Option Nat) : Option listIter :=
  match zmalloc with
  | none => none
  | some _ =>
    some { next := if direction = AL_START_HEAD then l.head else l.tail,
           direction := direction }

/-- The function `listRewind`; `li` is the content of the iterator before. -/
def listRewind (l : list) (_li : listIter) : listIter :=
  { next := l.head, direction := AL_START_HEAD }

/-- The function `listRewindTail`; `li` is the content of the iterator before. -/
def listRewindTail (l : list) (_li : listIter) : listIter :=
  { next := l.tail, direction := AL_START_TAIL }

/-- The function `listNext`: the iterator after the call and the node returned. -/
def listNext (m : Mem) (iter : listIter) : Option (listIter × Option Nat) :=
  let current := iter.next
  if current ≠ none then do
    if iter.direction = AL_START_HEAD then
      pure ({ iter with next := (← getNext m current) }, current)
    else
      pure ({ iter with next := (← getPrev m current) }, current)
  else
    some (iter, current)

/-- The loop of `listSearchKey`, run for at most `fuel` calls of `listNext`;
without fuel there is no result. -/
def listSearchKeyLoop (m : Mem) (l : list) (key : Ptr) :
    Nat → listIter → Option (Option Nat)
  | 0, _ => none
  | fuel + 1, iter => do
    let (iter, node) ← listNext m iter
    if node ≠ none then
      match l.match_ with
      | some f =>
        if f (← getValue m node) key ≠ 0 then pure node
        else listSearchKeyLoop m l key fuel iter
      | none =>
        if key = (← getValue m node) then pure node
        else listSearchKeyLoop m l key fuel iter
    else
      pure none

/-- The function `listSearchKey`. The local iterator is unset before
`listRewind` fills it. -/
def listSearchKey (fuel : Nat) (m : Mem) (l : list) (key : Ptr) : Option (Option Nat) :=
  listSearchKeyLoop m l key fuel (listRewind l { next := none, direction := 0 })

/-- Reduction of an integer to the range of `long`, two's complement. -/
def wrapLong (i : Int) : Int :=
  (i + 2 ^ 63) % 2 ^ 64 - 2 ^ 63

/-- The loops `while(index-- && n) n = n->prev;` and
`while(index-- && n) n = n->next;` of `listIndex`, for a count that is not
negative; `dir` selects the link followed. -/
def listIndexLoop (m : Mem) (dir : listNode → Option Nat) :
    Nat → Option Nat → Option (Option Nat)
  | 0, n => some n
  | _ + 1, none => some none
  | index + 1, some a =>
    match m.nodes a with
    | none => none
    | some nd => listIndexLoop m dir index (dir nd)

/-- The function `listIndex`. The count `(-index)-1` is never negative, so
the loop runs on its value as a natural number. -/
def listIndex (m : Mem) (l : list) (index : Int) : Option (Option Nat) :=
  if index < 0 then
    let index := wrapLong (wrapLong (-index) - 1)
    listIndexLoop m listNode.prev index.toNat l.tail
  else
    listIndexLoop m listNode.next index.toNat l.head

/-- The nodes met by following `next` from `p` until `NULL`, in at most `fuel`
steps; without fuel, or at an address that is not allocated, no result. -/
def followNext (m : Mem) : Nat → Option Nat → Option (List Nat)
  | _, none => some []
  | 0, some _ => none
  | fuel + 1, some a =>
    match m.nodes a with
    | none => none
    | some n => (followNext m fuel n.next).map (a :: ·)

/-- The nodes met by following `prev` from `p` until `NULL`, in at most `fuel`
steps; without fuel, or at an address that is not allocated, no result. -/
def followPrev (m : Mem) : Nat → Option Nat → Option (List Nat)
  | _, none => some []
  | 0, some _ => none
  | fuel + 1, some a =>
    match m.nodes a with
    | none => none
    | some n => (followPrev m fuel n.prev).map (a :: ·)

/-- The values held by the nodes at the given addresses, in order. -/
def valuesOf (m : Mem) (ps : List Nat) : List Ptr :=
  ps.map fun a => (m.nodes a).bind listNode.value

/-- The test `listSearchKey` makes on the value `v` of a node: the `match`
hook returns non-zero on `v` and `key` when the hook is set, and `key == v`
otherwise. -/
def keyMatches (l : list) (key : Ptr) (v : Ptr) : Prop :=
  match l.match_ with
  | some f => f v key ≠ 0
  | none => key = v

instance keyMatches.instDecidable (l : list) (key v : Ptr) : Decidable (keyMatches l key v) := by
  unfold keyMatches
  cases l.match_ <;> exact inferInstance

/-- A run of `count` calls of `listNext`: the iterator afterwards and the
nodes returned, in order. -/
def listNextN (m : Mem) : Nat → listIter → Option (listIter × List (Option Nat))
  | 0, iter => some (iter, [])
  | count + 1, iter => do
    let (iter, node) ← listNext m iter
    let (iter, rest) ← listNextN m count iter
    pure (iter, node :: rest)

/-- First address of `ps`, or `d` when `ps` is empty. -/
def firstOr (ps : List Nat) (d : Option Nat) : Option Nat :=
  match ps with
  | [] => d
  | a :: _ => some a

/-- Last address of `ps`, or `d` when `ps` is empty. -/
def lastOr (ps : List Nat) (d : Option Nat) : Option Nat :=
  match ps with
  | [] => d
  | a :: qs => lastOr qs (some a)

/-- The addresses `ps` are allocated nodes linked in this order: each node's
`prev` is its predecessor (`prev` for the first) and each node's `next` is its
successor (`nxt` for the last). -/
def Seg (m : Mem) : List Nat → Option Nat → Option Nat → Prop
  | [], _, _ => True
  | a :: ps, prev, nxt =>
    getPrev m (some a) = some prev ∧ getNext m (some a) = some (firstOr ps nxt) ∧
      Seg m ps (some a) nxt

instance Seg.instDecidable (m : Mem) :
    ∀ (ps : List Nat) (prev nxt : Option Nat), Decidable (Seg m ps prev nxt)
  | [], _, _ => isTrue trivial
  | a :: ps, _, nxt =>
    have := Seg.instDecidable m ps (some a) nxt
    inferInstanceAs (Decidable (_ ∧ _ ∧ _))

/-- Well-formed list: `ps` are the nodes of `l` from head to tail. The nodes
are distinct non-null 64-bit addresses, linked both ways with `NULL` at the
two ends, `head` and `tail` are the first and the last of them, and `len` is
their number. -/
def IsList (m : Mem) (l : list) (ps : List Nat) : Prop :=
  Seg m ps none none ∧ ps.Nodup ∧ l.head = firstOr ps none ∧ l.tail = lastOr ps none ∧
    l.len = ps.length ∧ ∀ a ∈ ps, 0 < a ∧ a < ULONG

instance IsList.instDecidable (m : Mem) (l : list) (ps : List Nat) :
    Decidable (IsList m l ps) :=
  inferInstanceAs (Decidable (_ ∧ _ ∧ _ ∧ _ ∧ _ ∧ _))

/-- What `zmalloc` may return: `NULL`, or a non-null 64-bit address that is
not allocated. -/
def zmallocOk (m : Mem) (zmalloc : Option Nat) : Prop :=
  match zmalloc with
  | none => True
  | some a => m.nodes a = none ∧ 0 < a ∧ a < ULONG

instance zmallocOk.instDecidable (m : Mem) (z : Option Nat) : Decidable (zmallocOk m z) :=
  match z with
  | none => isTrue trivial
  | some _ => inferInstanceAs (Decidable (_ ∧ _ ∧ _))

/-- The nodes of the list: those met from `head` by following `next`. -/
def listNodes (m : Mem) (l : list) : List Nat :=
  (followNext m l.len l.head).getD []

/-- A call on a list: the five mutation operations and the hook setters
`listSetDupMethod`, `listSetFreeMethod`, `listSetMatchMethod` of adlist.h. -/
inductive Op where
  | addHead (zmalloc : Option Nat) (value : Ptr)
  | addTail (zmalloc : Option Nat) (value : Ptr)
  | insert (old_node : Nat) (value : Ptr) (after : Int) (zmalloc : Option Nat)
  | del (node : Nat)
  | rotate
  | setDup (f : Option (Ptr → Ptr))
  | setFree (f : Option Nat)
  | setMatch (f : Option (Ptr → Ptr → Int))

/-- The call is one the list's contract allows: `zmalloc` behaves, and a node
argument is a node currently in the list. -/
def Op.admissible (m : Mem) (l : list) : Op → Prop
  | .addHead z _ => zmallocOk m z
  | .addTail z _ => zmallocOk m z
  | .insert old_node _ _ z => old_node ∈ listNodes m l ∧ zmallocOk m z
  | .del node => node ∈ listNodes m l
  | _ => True

instance Op.instDecidableAdmissible (m : Mem) (l : list) :
    (op : Op) → Decidable (op.admissible m l)
  | .addHead z _ => inferInstanceAs (Decidable (zmallocOk m z))
  | .addTail z _ => inferInstanceAs (Decidable (zmallocOk m z))
  | .insert old_node _ _ z =>
    inferInstanceAs (Decidable (old_node ∈ listNodes m l ∧ zmallocOk m z))
  | .del node => inferInstanceAs (Decidable (node ∈ listNodes m l))
  | .rotate => isTrue trivial
  | .setDup _ => isTrue trivial
  | .setFree _ => isTrue trivial
  | .setMatch _ => isTrue trivial

/-- Effect of one call on the memory and on the list. -/
def Op.apply (m : Mem) (l : list) : Op → Option (Mem × list)
  | .addHead z v => (listAddNodeHead m l z v).map fun r => (r.mem, r.lst)
  | .addTail z v => (listAddNodeTail m l z v).map fun r => (r.mem, r.lst)
  | .insert old_node v after z =>
    (listInsertNode m l (some old_node) v after z).map fun r => (r.mem, r.lst)
  | .del node => listDelNode m l (some node)
  | .rotate => listRotate m l
  | .setDup f => some (m, { l with dup := f })
  | .setFree f => some (m, { l with free := f })
  | .setMatch f => some (m, { l with match_ := f })

/-- The state after a sequence of admissible calls; no result when a call is
not admissible or has no result. -/
def run (m : Mem) (l : list) : List Op → Option (Mem × list)
  | [] => some (m, l)
  | op :: ops =>
    if op.admissible m l then
      match op.apply m l with
      | none => none
      | some s => run s.1 s.2 ops
    else none

/-- The calls `if (list->free) list->free(v);` adds to the record. -/
def freeCalls (l : list) (v : Ptr) : List (Nat × Ptr) :=
  match l.free with
  | none => []
  | some f => [(f, v)]

/-! ## A concrete list, used to instantiate the theorems -/

/-- Memory with no node allocated and no hook call made. -/
def exMem0 : Mem := ⟨fun _ => none, []⟩

/-- The list `listCreate` returns. -/
def exList0 : list :=
  { head := none, tail := none, dup := none, free := none, match_ := none, len := 0 }

/-- A sequence of calls that builds the nodes 3, 1, 4 (values 30, 10, 40),
deletes node 2 on the way and ends with a rotation. -/
def exOps : List Op :=
  [.setFree (some 77), .addTail (some 1) (some 10), .addTail (some 2) (some 20),
   .addHead (some 3) (some 30), .insert 1 (some 40) 1 (some 4), .del 2, .rotate]

/-- The state `exOps` leads to: nodes 4, 3, 1 from head to tail. -/
def exState : Mem × list := (run exMem0 exList0 exOps).getD (exMem0, exList0)

/-! ## Teardown, duplication, repeated rotation -/

/-- The loop `while(len--)` of `listRelease`; `len` is the local counter and
`current` the local node pointer. -/
def listReleaseLoop (l : list) : Nat → Mem → Option Nat → Option Mem
  | 0, m, _ => some m
  | len + 1, m, current => do
    let next ← getNext m current
    let m := callFree m l (← getValue m current)
    let m := zfree m current
    listReleaseLoop l len m next

/-- The function `listRelease`: the memory after the call. The list itself is
gone afterwards. -/
def listRelease (m : Mem) (l : list) : Option Mem :=
  listReleaseLoop l l.len m l.head

/-- The loop of `listDup`, run for at most `fuel` calls of `listNext`. `zs`
holds what the calls of `zmalloc` made by `listAddNodeTail` return, in order;
without fuel, or without an answer of `zmalloc`, there is no result. The
result is the memory and the pointer returned: the copy, or `none` for `NULL`.
The test `if (value == NULL)` is the one made in the branch `if (copy->dup)`. -/
def listDupLoop : Nat → Mem → list → listIter → List (Option Nat) →
    Option (Mem × Option list)
  | 0, _, _, _, _ => none
  | fuel + 1, m, copy, iter, zs => do
    let (iter, node) ← listNext m iter
    if node ≠ none then
      let value ←
        match copy.dup with
        | some f => pure (f (← getValue m node))
        | none => getValue m node
      if copy.dup.isSome ∧ value = none then
        let m ← listRelease m copy
        pure (m, none)
      else
        match zs with
        | [] => none
        | z :: zs =>
          let r ← listAddNodeTail m copy z value
          if r.ok = false then
            let m ← listRelease r.mem r.lst
            pure (m, none)
          else listDupLoop fuel r.mem r.lst iter zs
    else
      pure (m, some copy)

/-- The function `listDup`. `zlist` is what `zmalloc` returns to `listCreate`,
`zs` what it returns to the calls of `listAddNodeTail`. -/
def listDup (fuel : Nat) (m : Mem) (orig : list) (zlist : Option Nat)
    (zs : List (Option Nat)) : Option (Mem × Option list) :=
  match listCreate zlist with
  | none => some (m, none)
  | some copy =>
    let copy := { copy with dup := orig.dup }
    let copy := { copy with free := orig.free }
    let copy := { copy with match_ := orig.match_ }
    listDupLoop fuel m copy (listRewind orig { next := none, direction := 0 }) zs

/-- The value `listDup` stores in the copy for the value `v` of the source. -/
def dupValue (l : list) (v : Ptr) : Ptr :=
  match l.dup with
  | some f => f v
  | none => v

/-- The `dup` hook is set and returns `NULL` on `v`. -/
def dupFails (l : list) (v : Ptr) : Prop :=
  l.dup.isSome ∧ dupValue l v = none

instance dupFails.instDecidable (l : list) (v : Ptr) : Decidable (dupFails l v) :=
  inferInstanceAs (Decidable (_ ∧ _))

/-- Calls of `listRotate` one after the other. -/
def listRotateN : Nat → Mem → list → Option (Mem × list)
  | 0, m, l => some (m, l)
  | count + 1, m, l =>
    match listRotate m l with
    | none => none
    | some s => listRotateN count s.1 s.2

/-- Size of a `listNode` in bytes: three pointers of 8 bytes. -/
def NODE_SIZE : Nat := 24

/-- The nodes are objects of `NODE_SIZE` bytes that lie inside the 64-bit
address space and do not overlap. -/
def Placed (ps : List Nat) : Prop :=
  (∀ a ∈ ps, a + NODE_SIZE ≤ ULONG) ∧
    ps.Pairwise fun a b => a + NODE_SIZE ≤ b ∨ b + NODE_SIZE ≤ a

instance Placed.instDecidable (ps : List Nat) : Decidable (Placed ps) :=
  inferInstanceAs (Decidable (_ ∧ _))

/-- The conversion of an `unsigned long` to `long`. -/
def ulongToLong (n : Nat) : Int :=
  wrapLong (n : Int)

/-- A sequence of calls that builds the nodes 96, 32, 64 (values 30, 10, 20)
at addresses that leave room for the nodes. -/
def exOpsPlaced : List Op :=
  [.setFree (some 77), .addTail (some 32) (some 10), .addTail (some 64) (some 20),
   .addHead (some 96) (some 30)]

/-- The state `exOpsPlaced` leads to: nodes 96, 32, 64 from head to tail. -/
def exPlaced : Mem × list := (run exMem0 exList0 exOpsPlaced).getD (exMem0, exList0)

/-- The calls of the `free` hook that `listRelease` makes on a list holding the
values `vs` from head to tail. -/
def releaseCalls (l : list) (vs : List Ptr) : List (Nat × Ptr) :=
  match l.free with
  | none => []
  | some f => vs.map fun v => (f, v)

/-- The list of `exPlaced` with a `dup` hook that fails on the value 10, the
second one of the list, and adds 1 to every other value. -/
def exDupList : list :=
  { exPlaced.2 with dup := some fun v => if v = some 10 then none else v.map (· + 1) }

/-- The answer of `zmalloc` a call carries, `NULL` for the calls that do not
allocate. -/
def Op.zmalloc : Op → Option Nat
  | .addHead z _ => z
  | .addTail z _ => z
  | .insert _ _ _ z => z
  | _ => none

/-- The block `zmalloc` returned lies inside the address space and overlaps
none of the nodes `ps`. -/
def zmallocApart (ps : List Nat) (zmalloc : Option Nat) : Prop :=
  match zmalloc with
  | none => True
  | some a => a + NODE_SIZE ≤ ULONG ∧ ∀ b ∈ ps, a + NODE_SIZE ≤ b ∨ b + NODE_SIZE ≤ a

/-! # Theorems -/

/-! ## Memory reads and writes -/

@[simp] theorem store_nodes (m : Mem) (a : Nat) (n : listNode) (b : Nat) :
    (store m a n).nodes b = if b = a then some n else m.nodes b := rfl

@[simp] theorem store_calls (m : Mem) (a : Nat) (n : listNode) :
    (store m a n).calls = m.calls := rfl

theorem getPrev_some (m : Mem) (a : Nat) :
    getPrev m (some a) = (m.nodes a).map listNode.prev := by
  simp only [getPrev, Option.bind_eq_bind, Option.some_bind, Option.pure_def]
  cases m.nodes a <;> rfl

theorem getNext_some (m : Mem) (a : Nat) :
    getNext m (some a) = (m.nodes a).map listNode.next := by
  simp only [getNext, Option.bind_eq_bind, Option.some_bind, Option.pure_def]
  cases m.nodes a <;> rfl

theorem getValue_some (m : Mem) (a : Nat) :
    getValue m (some a) = (m.nodes a).map listNode.value := by
  simp only [getValue, Option.bind_eq_bind, Option.some_bind, Option.pure_def]
  cases m.nodes a <;> rfl

theorem setPrev_some (m : Mem) (a : Nat) (v : Option Nat) :
    setPrev m (some a) v = (m.nodes a).map fun n => store m a { n with prev := v } := by
  simp only [setPrev, Option.bind_eq_bind, Option.some_bind, Option.pure_def]
  cases m.nodes a <;> rfl

theorem setNext_some (m : Mem) (a : Nat) (v : Option Nat) :
    setNext m (some a) v = (m.nodes a).map fun n => store m a { n with next := v } := by
  simp only [setNext, Option.bind_eq_bind, Option.some_bind, Option.pure_def]
  cases m.nodes a <;> rfl

theorem setValue_some (m : Mem) (a : Nat) (v : Ptr) :
    setValue m (some a) v = (m.nodes a).map fun n => store m a { n with value := v } := by
  simp only [setValue, Option.bind_eq_bind, Option.some_bind, Option.pure_def]
  cases m.nodes a <;> rfl

/-! ## Segments -/

@[simp] theorem seg_nil (m : Mem) (prev nxt : Option Nat) : Seg m [] prev nxt := trivial

theorem seg_cons (m : Mem) (a : Nat) (ps : List Nat) (prev nxt : Option Nat) :
    Seg m (a :: ps) prev nxt ↔
      getPrev m (some a) = some prev ∧ getNext m (some a) = some (firstOr ps nxt) ∧
        Seg m ps (some a) nxt := Iff.rfl

@[simp] theorem firstOr_nil (d : Option Nat) : firstOr [] d = d := rfl

@[simp] theorem firstOr_cons (a : Nat) (ps : List Nat) (d : Option Nat) :
    firstOr (a :: ps) d = some a := rfl

@[simp] theorem lastOr_nil (d : Option Nat) : lastOr [] d = d := rfl

@[simp] theorem lastOr_cons (a : Nat) (ps : List Nat) (d : Option Nat) :
    lastOr (a :: ps) d = lastOr ps (some a) := rfl

theorem seg_cons_iff (m : Mem) (a : Nat) (ps : List Nat) (prev nxt : Option Nat) :
    Seg m (a :: ps) prev nxt ↔
      ∃ n, m.nodes a = some n ∧ n.prev = prev ∧ n.next = firstOr ps nxt ∧
        Seg m ps (some a) nxt := by
  simp only [seg_cons, getPrev_some, getNext_some]
  cases h : m.nodes a with
  | none => simp
  | some n => simp

/-- A segment only depends on the memory at its own addresses. -/
theorem seg_frame {m m2 : Mem} {ps : List Nat} (h : ∀ a ∈ ps, m2.nodes a = m.nodes a) :
    ∀ {prev nxt : Option Nat}, Seg m ps prev nxt → Seg m2 ps prev nxt := by
  induction ps with
  | nil => intro _ _ _; trivial
  | cons a ps ih =>
    intro prev nxt hs
    rw [seg_cons_iff] at hs ⊢
    obtain ⟨n, hn, h1, h2, h3⟩ := hs
    refine ⟨n, ?_, h1, h2, ih (fun b hb => h b (List.mem_cons_of_mem _ hb)) h3⟩
    rw [h a (List.mem_cons_self _ _), hn]

theorem firstOr_append (xs ys : List Nat) (d : Option Nat) :
    firstOr (xs ++ ys) d = firstOr xs (firstOr ys d) := by
  cases xs <;> rfl

theorem lastOr_append (xs ys : List Nat) (d : Option Nat) :
    lastOr (xs ++ ys) d = lastOr ys (lastOr xs d) := by
  induction xs generalizing d with
  | nil => rfl
  | cons a xs ih => simp [ih]

theorem seg_append (m : Mem) (xs ys : List Nat) (prev nxt : Option Nat) :
    Seg m (xs ++ ys) prev nxt ↔
      Seg m xs prev (firstOr ys nxt) ∧ Seg m ys (lastOr xs prev) nxt := by
  induction xs generalizing prev with
  | nil => simp
  | cons a xs ih =>
    simp only [List.cons_append, seg_cons, ih, lastOr_cons, firstOr_append]
    tauto

/-- Length of the list cannot reach the width of `unsigned long`. -/
theorem length_lt_ULONG {ps : List Nat} (hnd : ps.Nodup)
    (haddr : ∀ a ∈ ps, 0 < a ∧ a < ULONG) : ps.length < ULONG := by
  have hsub : ps.toFinset ⊆ Finset.Ico 1 ULONG := by
    intro a ha
    have := haddr a (List.mem_toFinset.mp ha)
    simp only [Finset.mem_Ico]; omega
  have hcard := Finset.card_le_card hsub
  rw [List.toFinset_card_of_nodup hnd, Nat.card_Ico] at hcard
  have : 0 < ULONG := by unfold ULONG; positivity
  omega

theorem seg_allocated {m : Mem} {ps : List Nat} {prev nxt : Option Nat}
    (h : Seg m ps prev nxt) : ∀ a ∈ ps, ∃ n, m.nodes a = some n := by
  induction ps generalizing prev with
  | nil => intro a ha; cases ha
  | cons b ps ih =>
    intro a ha
    rw [seg_cons_iff] at h
    obtain ⟨n, hn, -, -, h3⟩ := h
    rcases List.mem_cons.mp ha with rfl | ha
    · exact ⟨n, hn⟩
    · exact ih h3 a ha

theorem IsList.allocated {m : Mem} {l : list} {ps : List Nat} (h : IsList m l ps) :
    ∀ a ∈ ps, ∃ n, m.nodes a = some n := seg_allocated h.1

theorem IsList.fresh_not_mem {m : Mem} {l : list} {ps : List Nat} (h : IsList m l ps)
    {a : Nat} (ha : m.nodes a = none) : a ∉ ps := by
  intro hmem
  obtain ⟨n, hn⟩ := h.allocated a hmem
  rw [ha] at hn; cases hn

theorem len_succ_mod {m : Mem} {l : list} {ps : List Nat} (h : IsList m l ps)
    {a : Nat} (hz : zmallocOk m (some a)) : (l.len + 1) % ULONG = ps.length + 1 := by
  have hnot := h.fresh_not_mem hz.1
  obtain ⟨-, hnd, -, -, hlen, haddr⟩ := h
  have hlt : (a :: ps).length < ULONG := by
    apply length_lt_ULONG (List.nodup_cons.mpr ⟨hnot, hnd⟩)
    intro b hb
    rcases List.mem_cons.mp hb with rfl | hb
    · exact hz.2
    · exact haddr b hb
  rw [hlen]
  exact Nat.mod_eq_of_lt hlt

@[simp] theorem store_store_same (m : Mem) (a : Nat) (n n2 : listNode) :
    store (store m a n) a n2 = store m a n2 := by
  simp only [store, Mem.mk.injEq, and_true]
  funext b
  by_cases hb : b = a <;> simp [hb]

theorem seg_store_frame {m : Mem} {ps : List Nat} {prev nxt : Option Nat} {a : Nat}
    (n : listNode) (ha : a ∉ ps) (h : Seg m ps prev nxt) : Seg (store m a n) ps prev nxt := by
  refine seg_frame (fun b hb => ?_) h
  have : b ≠ a := by rintro rfl; exact ha hb
  simp [this]

theorem valuesOf_congr {m m2 : Mem} {ps : List Nat}
    (h : ∀ a ∈ ps, (m2.nodes a).bind listNode.value = (m.nodes a).bind listNode.value) :
    valuesOf m2 ps = valuesOf m ps := by
  unfold valuesOf
  exact List.map_congr_left h

theorem listAddNodeHead_ok {m : Mem} {l : list} {ps : List Nat} (h : IsList m l ps)
    {a : Nat} (hz : zmallocOk m (some a)) (value : Ptr) :
    ∃ r, listAddNodeHead m l (some a) value = some r ∧ r.ok = true ∧
      IsList r.mem r.lst (a :: ps) ∧
      r.mem.nodes a = some ⟨none, firstOr ps none, value⟩ ∧
      (∀ b, b ≠ a → (r.mem.nodes b).bind listNode.value = (m.nodes b).bind listNode.value) ∧
      (∀ b, b ≠ a → b ∉ ps → r.mem.nodes b = m.nodes b) ∧
      r.mem.calls = m.calls ∧
      r.lst = { l with head := some a, tail := lastOr ps (some a), len := l.len + 1 } := by
  have hnot := h.fresh_not_mem hz.1
  have hlen1 := len_succ_mod h hz
  obtain ⟨hseg, hnd, hhead, htail, hlen, haddr⟩ := h
  have haddr2 : ∀ c ∈ a :: ps, 0 < c ∧ c < ULONG := by
    intro c hc
    rcases List.mem_cons.mp hc with rfl | hc
    · exact hz.2
    · exact haddr c hc
  cases ps with
  | nil =>
    simp only [List.length_nil] at hlen
    rw [hlen] at hlen1
    simp only [List.length_nil, Nat.zero_add] at hlen1
    simp [listAddNodeHead, alloc, setValue_some, setPrev_some, setNext_some, hlen, hlen1,
      IsList, seg_cons_iff]
    refine ⟨hz.2, ?_, ?_⟩
    · intro b hb; simp [hb]
    · cases l; simp_all
  | cons b ps =>
    obtain ⟨n, hn, h1, h2, h3⟩ := (seg_cons_iff _ _ _ _ _).mp hseg
    have hba : b ≠ a := by rintro rfl; exact hnot (List.mem_cons_self _ _)
    have hab : a ≠ b := fun e => hba e.symm
    have hbps : b ∉ ps := (List.nodup_cons.mp hnd).1
    have haps : a ∉ ps := fun e => hnot (List.mem_cons_of_mem _ e)
    simp only [List.length_cons] at hlen
    rw [hlen] at hlen1
    simp only [List.length_cons] at hlen1
    simp [listAddNodeHead, alloc, setValue_some, setPrev_some, setNext_some, hlen, hhead,
      hba, hab, hn, hlen1]
    refine ⟨⟨?_, List.nodup_cons.mpr ⟨hnot, hnd⟩, rfl, ?_, rfl, haddr2⟩, ?_, ?_, ?_⟩
    · rw [seg_cons, seg_cons]
      refine ⟨by simp [getPrev_some, hab], by simp [getNext_some, hab],
        by simp [getPrev_some], by simp [getNext_some, h2], ?_⟩
      exact seg_store_frame _ hbps (seg_store_frame _ haps h3)
    · simpa using htail
    · intro c hc
      by_cases hcb : c = b <;> simp [hc, hcb, hn]
    · intro c hc hcb hcps
      simp [hc, hcb]
    · cases l; simp_all

theorem snoc_cases (ps : List Nat) : ps = [] ∨ ∃ xs t, ps = xs ++ [t] := by
  rcases List.eq_nil_or_concat ps with h | ⟨xs, t, h⟩
  · exact Or.inl h
  · exact Or.inr ⟨xs, t, by rw [h, List.concat_eq_append]⟩

theorem listAddNodeTail_ok {m : Mem} {l : list} {ps : List Nat} (h : IsList m l ps)
    {a : Nat} (hz : zmallocOk m (some a)) (value : Ptr) :
    ∃ r, listAddNodeTail m l (some a) value = some r ∧ r.ok = true ∧
      IsList r.mem r.lst (ps ++ [a]) ∧
      r.mem.nodes a = some ⟨lastOr ps none, none, value⟩ ∧
      (∀ b, b ≠ a → (r.mem.nodes b).bind listNode.value = (m.nodes b).bind listNode.value) ∧
      (∀ b, b ≠ a → b ∉ ps → r.mem.nodes b = m.nodes b) ∧
      r.mem.calls = m.calls ∧
      r.lst = { l with head := firstOr ps (some a), tail := some a, len := l.len + 1 } := by
  have hnot := h.fresh_not_mem hz.1
  have hlen1 := len_succ_mod h hz
  obtain ⟨hseg, hnd, hhead, htail, hlen, haddr⟩ := h
  have haddr2 : ∀ c ∈ ps ++ [a], 0 < c ∧ c < ULONG := by
    intro c hc
    rcases List.mem_append.mp hc with hc | hc
    · exact haddr c hc
    · rw [List.mem_singleton.mp hc]; exact hz.2
  have hnd2 : (ps ++ [a]).Nodup := by
    rw [List.nodup_append]
    refine ⟨hnd, List.nodup_singleton a, ?_⟩
    intro c hc hc2
    rw [List.mem_singleton.mp hc2] at hc
    exact hnot hc
  rcases snoc_cases ps with rfl | ⟨xs, t, rfl⟩
  · simp only [List.length_nil] at hlen
    rw [hlen] at hlen1
    simp only [List.length_nil, Nat.zero_add] at hlen1
    simp [listAddNodeTail, alloc, setValue_some, setPrev_some, setNext_some, hlen, hlen1,
      IsList, seg_cons_iff]
    refine ⟨hz.2, ?_, ?_⟩
    · intro b hb; simp [hb]
    · cases l; simp_all
  · rw [seg_append] at hseg
    obtain ⟨hxs, ht⟩ := hseg
    obtain ⟨n, hn, h1, h2, -⟩ := (seg_cons_iff _ _ _ _ _).mp ht
    have hta : t ≠ a := by rintro rfl; exact hnot (by simp)
    have hat : a ≠ t := fun e => hta e.symm
    have htxs : t ∉ xs := by
      intro e
      exact (List.nodup_append.mp hnd).2.2 e (List.mem_singleton_self t)
    have haxs : a ∉ xs := fun e => hnot (List.mem_append_left _ e)
    simp only [List.length_append, List.length_singleton] at hlen
    rw [hlen] at hlen1
    simp only [List.length_append, List.length_singleton] at hlen1
    simp only [lastOr_append, lastOr_cons, lastOr_nil] at htail
    simp [listAddNodeTail, alloc, setValue_some, setPrev_some, setNext_some, hlen, htail,
      hta, hat, hn, hlen1, lastOr_append]
    refine ⟨⟨?_, by simpa using hnd2, ?_, ?_, ?_, by simpa using haddr2⟩, ?_, ?_, ?_⟩
    · rw [seg_append, seg_cons, seg_cons]
      refine ⟨?_, ?_, ?_, ?_, ?_, trivial⟩
      · exact seg_store_frame _ htxs (seg_store_frame _ haxs hxs)
      · simp [getPrev_some, h1]
      · simp [getNext_some]
      · simp [getPrev_some, hat]
      · simp [getNext_some, hat]
    · simpa [firstOr_append] using hhead
    · simp [lastOr_append]
    · simp
    · intro c hc
      by_cases hcb : c = t <;> simp [hc, hcb, hn]
    · intro c hc hcb hcps
      simp [hc, hcps]
    · cases l; simp_all [firstOr_append]

theorem lastOr_mem {ys : List Nat} (d : Option Nat) (h : ys ≠ []) :
    ∃ y ∈ ys, lastOr ys d = some y := by
  induction ys generalizing d with
  | nil => exact absurd rfl h
  | cons a ys ih =>
    cases ys with
    | nil => exact ⟨a, by simp, rfl⟩
    | cons b ys =>
      obtain ⟨y, hy, he⟩ := ih (some a) (by simp)
      exact ⟨y, List.mem_cons_of_mem _ hy, he⟩

theorem firstOr_mem {ys : List Nat} (d : Option Nat) (h : ys ≠ []) :
    ∃ y ∈ ys, firstOr ys d = some y := by
  cases ys with
  | nil => exact absurd rfl h
  | cons a ys => exact ⟨a, by simp, rfl⟩

theorem listInsertNode_after_ok {m : Mem} {l : list} {xs ys : List Nat} {o : Nat}
    (h : IsList m l (xs ++ o :: ys))
    {a : Nat} (hz : zmallocOk m (some a)) (value : Ptr) {after : Int} (hafter : after ≠ 0) :
    ∃ r, listInsertNode m l (some o) value after (some a) = some r ∧ r.ok = true ∧
      IsList r.mem r.lst (xs ++ o :: a :: ys) ∧
      r.mem.nodes a = some ⟨some o, firstOr ys none, value⟩ ∧
      (∀ b, b ≠ a → (r.mem.nodes b).bind listNode.value = (m.nodes b).bind listNode.value) ∧
      (∀ b, b ≠ a → b ∉ xs ++ o :: ys → r.mem.nodes b = m.nodes b) ∧
      r.mem.calls = m.calls ∧
      r.lst = { l with tail := lastOr ys (some a), len := l.len + 1 } := by
  have hnot := h.fresh_not_mem hz.1
  have hlen1 := len_succ_mod h hz
  obtain ⟨hseg, hnd, hhead, htail, hlen, haddr⟩ := h
  have hmod : (l.len + 1) % ULONG = l.len + 1 := by rw [hlen1, hlen]
  have haddr2 : ∀ c ∈ xs ++ o :: a :: ys, 0 < c ∧ c < ULONG := by
    intro c hc
    simp only [List.mem_append, List.mem_cons] at hc
    rcases hc with hc | rfl | rfl | hc
    · exact haddr c (by simp [hc])
    · exact haddr c (by simp)
    · exact hz.2
    · exact haddr c (by simp [hc])
  have hoa : o ≠ a := by rintro rfl; exact hnot (by simp)
  have hao : a ≠ o := fun e => hoa e.symm
  have haxs : a ∉ xs := fun e => hnot (by simp [e])
  have hays : a ∉ ys := fun e => hnot (by simp [e])
  have hnd2 : (xs ++ o :: a :: ys).Nodup := by
    rw [List.nodup_append] at hnd ⊢
    obtain ⟨n1, n2, n3⟩ := hnd
    rw [List.nodup_cons] at n2
    refine ⟨n1, ?_, ?_⟩
    · rw [List.nodup_cons, List.nodup_cons]
      refine ⟨?_, hays, n2.2⟩
      simp only [List.mem_cons, not_or]
      exact ⟨hoa, n2.1⟩
    · intro c hc hc2
      simp only [List.mem_cons] at hc2
      rcases hc2 with rfl | rfl | hc2
      · exact n3 hc (by simp)
      · exact haxs hc
      · exact n3 hc (by simp [hc2])
  have hoxs : o ∉ xs := fun e => (List.nodup_append.mp hnd).2.2 e (by simp)
  have hoys : o ∉ ys := (List.nodup_cons.mp (List.nodup_append.mp hnd).2.1).1
  rw [seg_append] at hseg
  obtain ⟨hxs, hoseg⟩ := hseg
  obtain ⟨n, hn, h1, h2, hys⟩ := (seg_cons_iff _ _ _ _ _).mp hoseg
  simp only [List.length_append, List.length_cons] at hlen
  cases ys with
  | nil =>
    simp only [lastOr_append, lastOr_cons, lastOr_nil] at htail
    simp only [firstOr_nil] at h2
    simp [listInsertNode, alloc, setValue_some, setPrev_some, setNext_some, htail,
      hmod, lastOr_append, hafter, getPrev_some, getNext_some, hoa, hao, hn, h2]
    refine ⟨⟨?_, by simpa using hnd2, ?_, ?_, by simp [hlen], by simpa using haddr2⟩, ?_, ?_⟩
    · rw [seg_append, seg_cons, seg_cons]
      refine ⟨?_, ?_, ?_, ?_, ?_, trivial⟩
      · exact seg_store_frame _ hoxs (seg_store_frame _ haxs hxs)
      · simp [getPrev_some, h1]
      · simp [getNext_some]
      · simp [getPrev_some, hao]
      · simp [getNext_some, hao]
    · simpa [firstOr_append] using hhead
    · simp [lastOr_append]
    · intro c hc
      by_cases hcb : c = o <;> simp [hc, hcb, hn]
    · intro c hc hcxs hco
      simp [hc, hco]
  | cons y ys =>
    obtain ⟨ny, hny, hy1, hy2, hys2⟩ := (seg_cons_iff _ _ _ _ _).mp hys
    have hya : y ≠ a := by rintro rfl; exact hays (by simp)
    have hay : a ≠ y := fun e => hya e.symm
    have hyo : y ≠ o := by rintro rfl; exact hoys (by simp)
    have hoy : o ≠ y := fun e => hyo e.symm
    have hyxs : y ∉ xs := fun e => (List.nodup_append.mp hnd).2.2 e (by simp)
    have hyys : y ∉ ys :=
      (List.nodup_cons.mp (List.nodup_cons.mp (List.nodup_append.mp hnd).2.1).2).1
    have hoys2 : o ∉ ys := fun e => hoys (by simp [e])
    have hays2 : a ∉ ys := fun e => hays (by simp [e])
    have htl : l.tail ≠ some o := by
      rw [htail, lastOr_append, lastOr_cons]
      obtain ⟨z, hz1, hz2⟩ := lastOr_mem (some o) (List.cons_ne_nil y ys)
      rw [hz2]
      intro e
      cases e
      exact hoys hz1
    simp only [firstOr_cons] at h2
    simp [listInsertNode, alloc, setValue_some, setPrev_some, setNext_some, htl,
      hmod, lastOr_append, hafter, getPrev_some, getNext_some, hoa, hao, hn, h2,
      hya, hay, hyo, hoy, hny]
    refine ⟨⟨?_, by simpa using hnd2, ?_, ?_, by simp [hlen]; omega,
      by simpa using haddr2⟩, ?_, ?_, ?_⟩
    · rw [seg_append, seg_cons, seg_cons, seg_cons]
      refine ⟨?_, ?_, ?_, ?_, ?_, ?_, ?_, ?_⟩
      · exact seg_store_frame _ hyxs (seg_store_frame _ hoxs (seg_store_frame _ haxs hxs))
      · simp [getPrev_some, h1, hoy]
      · simp [getNext_some, hoy]
      · simp [getPrev_some, hay, hao]
      · simp [getNext_some, hay, hao]
      · simp [getPrev_some]
      · simp [getNext_some, hy2]
      · exact seg_store_frame _ hyys (seg_store_frame _ hoys2 (seg_store_frame _ hays2 hys2))
    · simpa [firstOr_append] using hhead
    · simpa [lastOr_append] using htail
    · intro c hc
      by_cases hcb : c = o
      · subst hcb; simp [hc, hn, hoy]
      · by_cases hcy : c = y
        · subst hcy; simp [hc, hny]
        · simp [hc, hcb, hcy]
    · intro c hc hcxs hco hcy hcys
      simp [hc, hco, hcy]
    · cases l; simp_all [lastOr_append]

theorem listInsertNode_before_ok {m : Mem} {l : list} {xs ys : List Nat} {o : Nat}
    (h : IsList m l (xs ++ o :: ys))
    {a : Nat} (hz : zmallocOk m (some a)) (value : Ptr) :
    ∃ r, listInsertNode m l (some o) value 0 (some a) = some r ∧ r.ok = true ∧
      IsList r.mem r.lst (xs ++ a :: o :: ys) ∧
      r.mem.nodes a = some ⟨lastOr xs none, some o, value⟩ ∧
      (∀ b, b ≠ a → (r.mem.nodes b).bind listNode.value = (m.nodes b).bind listNode.value) ∧
      (∀ b, b ≠ a → b ∉ xs ++ o :: ys → r.mem.nodes b = m.nodes b) ∧
      r.mem.calls = m.calls ∧
      r.lst = { l with head := firstOr xs (some a), len := l.len + 1 } := by
  have hnot := h.fresh_not_mem hz.1
  have hlen1 := len_succ_mod h hz
  obtain ⟨hseg, hnd, hhead, htail, hlen, haddr⟩ := h
  have hmod : (l.len + 1) % ULONG = l.len + 1 := by rw [hlen1, hlen]
  have haddr2 : ∀ c ∈ xs ++ a :: o :: ys, 0 < c ∧ c < ULONG := by
    intro c hc
    simp only [List.mem_append, List.mem_cons] at hc
    rcases hc with hc | rfl | rfl | hc
    · exact haddr c (by simp [hc])
    · exact hz.2
    · exact haddr c (by simp)
    · exact haddr c (by simp [hc])
  have hoa : o ≠ a := by rintro rfl; exact hnot (by simp)
  have hao : a ≠ o := fun e => hoa e.symm
  have haxs : a ∉ xs := fun e => hnot (by simp [e])
  have hays : a ∉ ys := fun e => hnot (by simp [e])
  have hnd2 : (xs ++ a :: o :: ys).Nodup := by
    rw [List.nodup_append] at hnd ⊢
    obtain ⟨n1, n2, n3⟩ := hnd
    refine ⟨n1, ?_, ?_⟩
    · rw [List.nodup_cons]
      refine ⟨?_, n2⟩
      simp only [List.mem_cons, not_or]
      exact ⟨hao, hays⟩
    · intro c hc hc2
      simp only [List.mem_cons] at hc2
      rcases hc2 with rfl | rfl | hc2
      · exact haxs hc
      · exact n3 hc (by simp)
      · exact n3 hc (by simp [hc2])
  have hoxs : o ∉ xs := fun e => (List.nodup_append.mp hnd).2.2 e (by simp)
  have hoys : o ∉ ys := (List.nodup_cons.mp (List.nodup_append.mp hnd).2.1).1
  rw [seg_append] at hseg
  obtain ⟨hxs, hoseg⟩ := hseg
  obtain ⟨n, hn, h1, h2, hys⟩ := (seg_cons_iff _ _ _ _ _).mp hoseg
  simp only [List.length_append, List.length_cons] at hlen
  simp only [firstOr_append, firstOr_cons] at hhead
  rcases snoc_cases xs with rfl | ⟨xs, x, rfl⟩
  · simp only [lastOr_nil] at h1
    simp only [firstOr_nil] at hhead
    simp [listInsertNode, alloc, setValue_some, setPrev_some, setNext_some, hhead,
      hmod, getPrev_some, getNext_some, hoa, hao, hn, h1]
    refine ⟨⟨?_, by simpa using hnd2, by simp, ?_, by simp [hlen],
      by simpa using haddr2⟩, ?_, ?_⟩
    · rw [seg_cons, seg_cons]
      refine ⟨?_, ?_, ?_, ?_, ?_⟩
      · simp [getPrev_some, hao]
      · simp [getNext_some, hao]
      · simp [getPrev_some]
      · simp [getNext_some, h2]
      · exact seg_store_frame _ hoys (seg_store_frame _ hays hys)
    · simpa using htail
    · intro c hc
      by_cases hcb : c = o
      · subst hcb; simp [hc, hn]
      · simp [hc, hcb]
    · intro c hc hco hcys
      simp [hc, hco]
  · rw [seg_append] at hxs
    obtain ⟨hxs, hxseg⟩ := hxs
    obtain ⟨nx, hnx, hx1, hx2, -⟩ := (seg_cons_iff _ _ _ _ _).mp hxseg
    have hxa : x ≠ a := by rintro rfl; exact haxs (by simp)
    have hax : a ≠ x := fun e => hxa e.symm
    have hxo : x ≠ o := by rintro rfl; exact hoxs (by simp)
    have hox : o ≠ x := fun e => hxo e.symm
    have hxxs : x ∉ xs := by
      intro e
      exact (List.nodup_append.mp (List.nodup_append.mp hnd).1).2.2 e (by simp)
    have hxys : x ∉ ys := fun e =>
      (List.nodup_append.mp hnd).2.2 (show x ∈ xs ++ [x] by simp) (by simp [e])
    have hoxs2 : o ∉ xs := fun e => hoxs (by simp [e])
    have haxs2 : a ∉ xs := fun e => haxs (by simp [e])
    have hhd : l.head ≠ some o := by
      rw [hhead]
      obtain ⟨z, hz1, hz2⟩ := firstOr_mem (some o) (show xs ++ [x] ≠ [] by simp)
      rw [hz2]
      intro e
      cases e
      exact hoxs hz1
    simp only [lastOr_append, lastOr_cons, lastOr_nil] at h1
    simp [listInsertNode, alloc, setValue_some, setPrev_some, setNext_some, hhd,
      hmod, getPrev_some, getNext_some, hoa, hao, hn, h1,
      hxa, hax, hxo, hox, hnx]
    refine ⟨⟨?_, by simpa using hnd2, ?_, ?_, by simp [hlen]; omega,
      by simpa using haddr2⟩, by simp [lastOr_append], ?_, ?_, ?_⟩
    · rw [seg_append, seg_cons, seg_cons, seg_cons]
      refine ⟨?_, ?_, ?_, ?_, ?_, ?_, ?_, ?_⟩
      · exact seg_store_frame _ hoxs2 (seg_store_frame _ hxxs (seg_store_frame _ haxs2 hxs))
      · simp [getPrev_some, hx1, hxo]
      · simp [getNext_some, hxo]
      · simp [getPrev_some, hax, hao, lastOr_append]
      · simp [getNext_some, hax, hao]
      · simp [getPrev_some]
      · simp [getNext_some, h2]
      · exact seg_store_frame _ hoys (seg_store_frame _ hxys (seg_store_frame _ hays hys))
    · simpa [firstOr_append] using hhead
    · simpa [lastOr_append] using htail
    · intro c hc
      by_cases hcb : c = o
      · subst hcb; simp [hc, hn]
      · by_cases hcx : c = x
        · subst hcx; simp [hc, hnx, hcb]
        · simp [hc, hcb, hcx]
    · intro c hc hcxs hcx hco hcys
      simp [hc, hco, hcx]
    · cases l; simp_all [firstOr_append]

@[simp] theorem zfree_nodes (m : Mem) (a b : Nat) :
    (zfree m (some a)).nodes b = if b = a then none else m.nodes b := rfl

@[simp] theorem zfree_calls (m : Mem) (a : Nat) : (zfree m (some a)).calls = m.calls := rfl

@[simp] theorem callFree_nodes (m : Mem) (l : list) (v : Ptr) :
    (callFree m l v).nodes = m.nodes := by
  unfold callFree; cases l.free <;> rfl

theorem callFree_calls (m : Mem) (l : list) (v : Ptr) :
    (callFree m l v).calls = m.calls ++ freeCalls l v := by
  unfold callFree freeCalls; cases l.free <;> simp

theorem seg_zfree_frame {m : Mem} {ps : List Nat} {prev nxt : Option Nat} {a : Nat}
    (ha : a ∉ ps) (h : Seg m ps prev nxt) : Seg (zfree m (some a)) ps prev nxt := by
  refine seg_frame (fun b hb => ?_) h
  have : b ≠ a := by rintro rfl; exact ha hb
  simp [this]

theorem seg_callFree {m : Mem} {ps : List Nat} {prev nxt : Option Nat} (l : list) (v : Ptr)
    (h : Seg m ps prev nxt) : Seg (callFree m l v) ps prev nxt :=
  seg_frame (fun b _ => by simp) h

/-- Writing the `next` of the last node of a segment changes its successor. -/
theorem seg_set_next_last {m : Mem} {xs : List Nat} {x : Nat} {prev nxt : Option Nat}
    {nx : listNode} (h : Seg m (xs ++ [x]) prev nxt) (hx : x ∉ xs) (hnx : m.nodes x = some nx)
    (v : Option Nat) : Seg (store m x { nx with next := v }) (xs ++ [x]) prev v := by
  rw [seg_append] at h ⊢
  obtain ⟨h1, h2⟩ := h
  refine ⟨seg_store_frame _ hx h1, ?_⟩
  rw [seg_cons, getPrev_some, getNext_some, hnx] at h2
  rw [seg_cons, getPrev_some, getNext_some]
  simpa using h2.1

/-- Writing the `prev` of the first node of a segment changes its predecessor. -/
theorem seg_set_prev_first {m : Mem} {ys : List Nat} {y : Nat} {prev nxt : Option Nat}
    {ny : listNode} (h : Seg m (y :: ys) prev nxt) (hy : y ∉ ys) (hny : m.nodes y = some ny)
    (v : Option Nat) : Seg (store m y { ny with prev := v }) (y :: ys) v nxt := by
  rw [seg_cons, getPrev_some, getNext_some, hny] at h
  rw [seg_cons, getPrev_some, getNext_some]
  refine ⟨by simp, by simpa using h.2.1, seg_store_frame _ hy h.2.2⟩

theorem listDelNode_ok {m : Mem} {l : list} {xs ys : List Nat} {o : Nat}
    (h : IsList m l (xs ++ o :: ys)) :
    ∃ r, listDelNode m l (some o) = some r ∧
      IsList r.1 r.2 (xs ++ ys) ∧
      r.1.nodes o = none ∧
      (∀ b, b ≠ o → (r.1.nodes b).bind listNode.value = (m.nodes b).bind listNode.value) ∧
      (∀ b, b ∉ xs ++ o :: ys → r.1.nodes b = m.nodes b) ∧
      r.1.calls = m.calls ++ freeCalls l ((m.nodes o).bind listNode.value) ∧
      r.2 = { l with head := firstOr (xs ++ ys) none, tail := lastOr (xs ++ ys) none,
                     len := l.len - 1 } := by
  obtain ⟨hseg, hnd, hhead, htail, hlen, haddr⟩ := h
  have hlt := length_lt_ULONG hnd haddr
  have hmod : (l.len + ULONG - 1) % ULONG = l.len - 1 := by
    rw [hlen] at *
    simp only [List.length_append, List.length_cons] at hlt ⊢
    have : xs.length + (ys.length + 1) + ULONG - 1 = (xs.length + ys.length) + ULONG := by omega
    rw [this, Nat.add_mod_right, Nat.mod_eq_of_lt (by omega)]
    omega
  have haddr2 : ∀ c ∈ xs ++ ys, 0 < c ∧ c < ULONG := by
    intro c hc
    simp only [List.mem_append] at hc
    rcases hc with hc | hc
    · exact haddr c (by simp [hc])
    · exact haddr c (by simp [hc])
  have hnd2 : (xs ++ ys).Nodup := by
    rw [List.nodup_append] at hnd ⊢
    obtain ⟨n1, n2, n3⟩ := hnd
    exact ⟨n1, (List.nodup_cons.mp n2).2, fun c hc hc2 => n3 hc (by simp [hc2])⟩
  have hoxs : o ∉ xs := fun e => (List.nodup_append.mp hnd).2.2 e (by simp)
  have hoys : o ∉ ys := (List.nodup_cons.mp (List.nodup_append.mp hnd).2.1).1
  have hdis : ∀ c, c ∈ xs → c ∈ ys → False := fun c hc hc2 =>
    (List.nodup_append.mp hnd).2.2 hc (by simp [hc2])
  rw [seg_append] at hseg
  obtain ⟨hxs, hoseg⟩ := hseg
  obtain ⟨n, hn, h1, h2, hys⟩ := (seg_cons_iff _ _ _ _ _).mp hoseg
  simp only [firstOr_cons] at hxs
  rcases snoc_cases xs with rfl | ⟨xs, x, rfl⟩
  · simp only [lastOr_nil] at h1
    cases ys with
    | nil =>
      simp only [firstOr_nil] at h2
      obtain ⟨r, hr⟩ : ∃ r, listDelNode m l (some o) = some r := by
        simp [listDelNode, setPrev_some, setNext_some, getPrev_some, getNext_some,
          getValue_some, hn, h1, h2]
      refine ⟨r, hr, ?_⟩
      simp [listDelNode, setPrev_some, setNext_some, getPrev_some, getNext_some,
        getValue_some, hn, h1, h2, hmod] at hr
      subst hr
      refine ⟨⟨trivial, hnd2, rfl, rfl, by simp [hlen], haddr2⟩, by simp, ?_, ?_, ?_, rfl⟩
      · intro b hb; simp [hb]
      · intro b hb; simp at hb; simp [hb]
      · simp [callFree_calls, hn, freeCalls]
    | cons y ys =>
      obtain ⟨ny, hny, hy1, hy2, hys2⟩ := (seg_cons_iff _ _ _ _ _).mp hys
      have hyo : y ≠ o := by rintro rfl; exact hoys (by simp)
      have hoy : o ≠ y := fun e => hyo e.symm
      have hyys : y ∉ ys := (List.nodup_cons.mp (by simpa using hnd2)).1
      simp only [firstOr_cons] at h2
      obtain ⟨r, hr⟩ : ∃ r, listDelNode m l (some o) = some r := by
        simp [listDelNode, setPrev_some, setNext_some, getPrev_some, getNext_some,
          getValue_some, hn, h1, h2, hyo, hoy, hny]
      refine ⟨r, hr, ?_⟩
      simp [listDelNode, setPrev_some, setNext_some, getPrev_some, getNext_some,
        getValue_some, hn, h1, h2, hmod, hyo, hoy, hny] at hr
      subst hr
      refine ⟨⟨?_, hnd2, rfl, by simpa using htail, by simp [hlen], haddr2⟩, by simp,
        ?_, ?_, ?_, ?_⟩
      · exact seg_zfree_frame hoys (seg_callFree _ _ (seg_set_prev_first hys hyys hny none))
      · intro b hb
        by_cases hby : b = y
        · subst hby; simp [hb, hny]
        · simp [hb, hby]
      · intro b hb; simp at hb; simp [hb]
      · simp [callFree_calls, hn, freeCalls]
      · cases l; simp_all
  · rw [seg_append] at hxs
    have hxseg := hxs.2
    obtain ⟨nx, hnx, hx1, hx2, -⟩ := (seg_cons_iff _ _ _ _ _).mp hxseg
    have hxs0 : Seg m (xs ++ [x]) none (some o) := by
      rw [seg_append]; exact hxs
    have hxo : x ≠ o := by rintro rfl; exact hoxs (by simp)
    have hox : o ≠ x := fun e => hxo e.symm
    have hxxs : x ∉ xs := by
      intro e
      exact (List.nodup_append.mp (List.nodup_append.mp hnd).1).2.2 e (by simp)
    simp only [lastOr_append, lastOr_cons, lastOr_nil] at h1
    cases ys with
    | nil =>
      simp only [firstOr_nil] at h2
      obtain ⟨r, hr⟩ : ∃ r, listDelNode m l (some o) = some r := by
        simp [listDelNode, setPrev_some, setNext_some, getPrev_some, getNext_some,
          getValue_some, hn, h1, h2, hxo, hox, hnx]
      refine ⟨r, hr, ?_⟩
      simp [listDelNode, setPrev_some, setNext_some, getPrev_some, getNext_some,
        getValue_some, hn, h1, h2, hmod, hxo, hox, hnx] at hr
      subst hr
      refine ⟨⟨?_, hnd2, by simpa [firstOr_append] using hhead, by simp [lastOr_append],
        by simp [hlen], haddr2⟩, by simp, ?_, ?_, ?_, ?_⟩
      · rw [List.append_nil]
        exact seg_zfree_frame hoxs (seg_callFree _ _ (seg_set_next_last hxs0 hxxs hnx none))
      · intro b hb
        by_cases hbx : b = x
        · subst hbx; simp [hb, hnx]
        · simp [hb, hbx]
      · intro b hb; simp at hb; simp [hb]
      · simp [callFree_calls, hn, freeCalls]
      · cases l; simp_all [firstOr_append, lastOr_append]
    | cons y ys =>
      obtain ⟨ny, hny, hy1, hy2, hys2⟩ := (seg_cons_iff _ _ _ _ _).mp hys
      have hyo : y ≠ o := by rintro rfl; exact hoys (by simp)
      have hoy : o ≠ y := fun e => hyo e.symm
      have hyys : y ∉ ys := (List.nodup_cons.mp (List.nodup_append.mp hnd2).2.1).1
      have hxy : x ≠ y := by rintro rfl; exact hdis x (by simp) (by simp)
      have hyx : y ≠ x := fun e => hxy e.symm
      have hyxs : y ∉ xs ++ [x] := fun e => hdis y e (by simp)
      have hxys : x ∉ y :: ys := fun e => hdis x (by simp) e
      simp only [firstOr_cons] at h2
      obtain ⟨r, hr⟩ : ∃ r, listDelNode m l (some o) = some r := by
        simp [listDelNode, setPrev_some, setNext_some, getPrev_some, getNext_some,
          getValue_some, hn, h1, h2, hxo, hox, hnx, hyo, hoy, hny, hxy, hyx]
      refine ⟨r, hr, ?_⟩
      simp [listDelNode, setPrev_some, setNext_some, getPrev_some, getNext_some,
        getValue_some, hn, h1, h2, hmod, hxo, hox, hnx, hyo, hoy, hny, hxy, hyx] at hr
      subst hr
      refine ⟨⟨?_, hnd2, by simpa [firstOr_append] using hhead,
        by simpa [lastOr_append] using htail, by simp [hlen], haddr2⟩, by simp,
        ?_, ?_, ?_, ?_⟩
      · have hoall : o ∉ xs ++ [x] ++ y :: ys := by
          intro e
          rcases List.mem_append.mp e with e | e
          · exact hoxs e
          · exact hoys e
        refine seg_zfree_frame hoall (seg_callFree _ _ ?_)
        rw [seg_append]
        constructor
        · exact seg_store_frame _ hyxs (seg_set_next_last hxs0 hxxs hnx (some y))
        · have := seg_set_prev_first (seg_store_frame { nx with next := some y } hxys hys)
            hyys (show _ = some ny by simp [hyx, hny]) (some x)
          simpa [lastOr_append] using this
      · intro b hb
        by_cases hbx : b = x
        · subst hbx; simp [hb, hnx, hxy]
        · by_cases hby : b = y
          · subst hby; simp [hb, hny]
          · simp [hb, hbx, hby]
      · intro b hb; simp at hb; simp [hb]
      · simp [callFree_calls, hn, freeCalls]
      · cases l; simp_all [firstOr_append, lastOr_append]

theorem listRotate_short {m : Mem} {l : list} {ps : List Nat} (h : IsList m l ps)
    (hlen : ps.length ≤ 1) : listRotate m l = some (m, l) := by
  have : l.len ≤ 1 := by rw [h.2.2.2.2.1]; exact hlen
  simp [listRotate, this]

theorem listRotate_long {m : Mem} {l : list} {xs : List Nat} {t : Nat}
    (h : IsList m l (xs ++ [t])) (hxs : xs ≠ []) :
    ∃ r, listRotate m l = some r ∧
      IsList r.1 r.2 (t :: xs) ∧
      (∀ b, (r.1.nodes b).bind listNode.value = (m.nodes b).bind listNode.value) ∧
      (∀ b, b ∉ xs ++ [t] → r.1.nodes b = m.nodes b) ∧
      r.1.calls = m.calls ∧
      r.2 = { l with head := some t, tail := lastOr xs none } := by
  obtain ⟨hseg, hnd, hhead, htail, hlen, haddr⟩ := h
  have haddr2 : ∀ c ∈ t :: xs, 0 < c ∧ c < ULONG := by
    intro c hc
    exact haddr c (by simp at hc ⊢; tauto)
  have hnd2 : (t :: xs).Nodup := by
    have := List.nodup_append.mp hnd
    exact List.nodup_cons.mpr ⟨fun e => this.2.2 e (by simp), this.1⟩
  have htxs : t ∉ xs := (List.nodup_cons.mp hnd2).1
  have hlen2 : ¬ l.len ≤ 1 := by
    rw [hlen]
    cases xs with
    | nil => exact absurd rfl hxs
    | cons a xs => simp
  simp only [lastOr_append, lastOr_cons, lastOr_nil] at htail
  cases xs with
  | nil => exact absurd rfl hxs
  | cons hd xs =>
    simp only [List.cons_append, firstOr_cons] at hhead
    have hhdt : hd ≠ t := by rintro rfl; exact htxs (by simp)
    have hthd : t ≠ hd := fun e => hhdt e.symm
    have hhdxs : hd ∉ xs := (List.nodup_cons.mp (List.nodup_cons.mp hnd2).2).1
    rcases snoc_cases xs with rfl | ⟨ms, p, rfl⟩
    · -- two nodes
      obtain ⟨nh, hnh, hh1, hh2, hseg⟩ := (seg_cons_iff _ _ _ _ _).mp hseg
      obtain ⟨nt, hnt, ht1, ht2, -⟩ := (seg_cons_iff _ _ _ _ _).mp hseg
      obtain ⟨r, hr⟩ : ∃ r, listRotate m l = some r := by
        simp [listRotate, hlen2, setPrev_some, setNext_some, getPrev_some, getNext_some,
          htail, hhead, hnh, hnt, ht1, hhdt, hthd]
      refine ⟨r, hr, ?_⟩
      simp [listRotate, hlen2, setPrev_some, setNext_some, getPrev_some, getNext_some,
          htail, hhead, hnh, hnt, ht1, hhdt, hthd] at hr
      subst hr
      refine ⟨⟨?_, hnd2, rfl, rfl, by simpa using hlen, haddr2⟩, ?_, ?_, rfl, ?_⟩
      · rw [seg_cons, seg_cons]
        simp [getPrev_some, getNext_some, hhdt, hthd]
      · intro b
        by_cases hbt : b = t
        · subst hbt; simp [hnt]
        · by_cases hbh : b = hd
          · subst hbh; simp [hnh, hbt]
          · simp [hbt, hbh]
      · intro b hb; simp at hb; simp [hb]
      · cases l; simp_all
    · -- three nodes or more
      have hpt : p ≠ t := by rintro rfl; exact htxs (by simp)
      have htp : t ≠ p := fun e => hpt e.symm
      have hphd : p ≠ hd := by rintro rfl; exact hhdxs (by simp)
      have hhdp : hd ≠ p := fun e => hphd e.symm
      have hpms : p ∉ hd :: ms := by
        have hx : ((hd :: ms) ++ [p]).Nodup := by simpa using (List.nodup_cons.mp hnd2).2
        intro e
        exact (List.nodup_append.mp hx).2.2 e (by simp)
      have hsplit : hd :: (ms ++ [p]) ++ [t] = (hd :: ms ++ [p]) ++ [t] := by simp
      rw [hsplit, seg_append] at hseg
      obtain ⟨hfront, hlast⟩ := hseg
      simp only [firstOr_cons] at hfront
      obtain ⟨nt, hnt, ht1, ht2, -⟩ := (seg_cons_iff _ _ _ _ _).mp hlast
      simp only [lastOr_append, lastOr_cons, lastOr_nil] at ht1
      obtain ⟨nh, hnh, hh1, hh2, -⟩ := (seg_cons_iff _ _ _ _ _).mp hfront
      have hfront2 : Seg m ((hd :: ms) ++ [p]) none (some t) := by simpa using hfront
      obtain ⟨np, hnp, hp1, hp2, -⟩ :=
        (seg_cons_iff _ _ _ _ _).mp ((seg_append _ _ _ _ _).mp hfront2).2
      obtain ⟨r, hr⟩ : ∃ r, listRotate m l = some r := by
        simp [listRotate, hlen2, setPrev_some, setNext_some, getPrev_some, getNext_some,
          htail, hhead, hnh, hnt, ht1, hhdt, hthd, hnp, hpt, htp, hphd, hhdp]
      refine ⟨r, hr, ?_⟩
      simp [listRotate, hlen2, setPrev_some, setNext_some, getPrev_some, getNext_some,
          htail, hhead, hnh, hnt, ht1, hhdt, hthd, hnp, hpt, htp, hphd, hhdp] at hr
      subst hr
      refine ⟨⟨?_, hnd2, rfl, by simp [lastOr_append], by simpa using hlen, haddr2⟩,
        ?_, ?_, rfl, ?_⟩
      · rw [seg_cons]
        refine ⟨by simp [getPrev_some], by simp [getNext_some], ?_⟩
        refine seg_store_frame _ htxs ?_
        have h1 := seg_set_next_last hfront2 hpms hnp none
        have h1b : Seg (store m p { np with next := none }) (hd :: (ms ++ [p])) none none := by
          simpa using h1
        have h2 := seg_set_prev_first h1b hhdxs
          (show _ = some nh by simp [hhdp, hnh]) (some t)
        exact h2
      · intro b
        by_cases hbt : b = t
        · subst hbt; simp [hnt]
        · by_cases hbh : b = hd
          · subst hbh; simp [hnh, hbt]
          · by_cases hbp : b = p
            · subst hbp; simp [hnp, hbt, hbh]
            · simp [hbt, hbh, hbp]
      · intro b hb; simp at hb; simp [hb]
      · cases l; simp_all [lastOr_append]

/-! ## Traversals of a well-formed list -/

theorem followNext_seg {m : Mem} {ps : List Nat} {prev : Option Nat}
    (h : Seg m ps prev none) :
    ∀ fuel, ps.length ≤ fuel → followNext m fuel (firstOr ps none) = some ps := by
  induction ps generalizing prev with
  | nil => intro fuel _; cases fuel <;> rfl
  | cons a ps ih =>
    intro fuel hfuel
    obtain ⟨n, hn, -, h2, h3⟩ := (seg_cons_iff _ _ _ _ _).mp h
    cases fuel with
    | zero => simp at hfuel
    | succ fuel =>
      simp only [firstOr_cons, followNext, hn, h2]
      rw [ih h3 fuel (by simpa using hfuel)]
      rfl

theorem followPrev_seg {m : Mem} {ps : List Nat} {nxt : Option Nat}
    (h : Seg m ps none nxt) :
    ∀ fuel, ps.length ≤ fuel → followPrev m fuel (lastOr ps none) = some ps.reverse := by
  induction ps using List.reverseRecOn generalizing nxt with
  | nil => intro fuel _; cases fuel <;> rfl
  | append_singleton ps a ih =>
    intro fuel hfuel
    rw [seg_append] at h
    obtain ⟨h1, h2⟩ := h
    obtain ⟨n, hn, hp, -, -⟩ := (seg_cons_iff _ _ _ _ _).mp h2
    cases fuel with
    | zero => simp at hfuel
    | succ fuel =>
      simp only [lastOr_append, lastOr_cons, lastOr_nil, followPrev, hn, hp]
      rw [ih h1 fuel (by simpa using hfuel)]
      simp

theorem IsList.followNext_eq {m : Mem} {l : list} {ps : List Nat} (h : IsList m l ps)
    {fuel : Nat} (hfuel : l.len ≤ fuel) : followNext m fuel l.head = some ps := by
  rw [h.2.2.1]
  exact followNext_seg h.1 fuel (by rw [← h.2.2.2.2.1]; exact hfuel)

theorem IsList.followPrev_eq {m : Mem} {l : list} {ps : List Nat} (h : IsList m l ps)
    {fuel : Nat} (hfuel : l.len ≤ fuel) : followPrev m fuel l.tail = some ps.reverse := by
  rw [h.2.2.2.1]
  exact followPrev_seg h.1 fuel (by rw [← h.2.2.2.2.1]; exact hfuel)

theorem IsList.listNodes_eq {m : Mem} {l : list} {ps : List Nat} (h : IsList m l ps) :
    listNodes m l = ps := by
  unfold listNodes
  rw [h.followNext_eq (le_refl _)]
  rfl

/-! ## Reachable states are well formed -/

theorem isList_create {z : Option Nat} {l : list} (h : listCreate z = some l) (m : Mem) :
    IsList m l [] := by
  cases z with
  | none => simp [listCreate] at h
  | some a =>
    simp only [listCreate, Option.some.injEq] at h
    subst h
    exact ⟨trivial, List.nodup_nil, rfl, rfl, rfl, by simp⟩

theorem step_isList {m : Mem} {l : list} {ps : List Nat} (h : IsList m l ps) (op : Op)
    (hadm : op.admissible m l) :
    ∃ s ps2, op.apply m l = some s ∧ IsList s.1 s.2 ps2 := by
  cases op with
  | addHead z v =>
    cases z with
    | none => exact ⟨(m, l), ps, rfl, h⟩
    | some a =>
      obtain ⟨r, hr, -, hl, -⟩ := listAddNodeHead_ok h hadm v
      exact ⟨(r.mem, r.lst), _, by simp [Op.apply, hr], hl⟩
  | addTail z v =>
    cases z with
    | none => exact ⟨(m, l), ps, rfl, h⟩
    | some a =>
      obtain ⟨r, hr, -, hl, -⟩ := listAddNodeTail_ok h hadm v
      exact ⟨(r.mem, r.lst), _, by simp [Op.apply, hr], hl⟩
  | insert o v after z =>
    obtain ⟨hmem, hz⟩ := hadm
    rw [h.listNodes_eq] at hmem
    obtain ⟨xs, ys, rfl⟩ := List.append_of_mem hmem
    cases z with
    | none => exact ⟨(m, l), _, rfl, h⟩
    | some a =>
      by_cases hafter : after = 0
      · subst hafter
        obtain ⟨r, hr, -, hl, -⟩ := listInsertNode_before_ok h hz v
        exact ⟨(r.mem, r.lst), _, by simp [Op.apply, hr], hl⟩
      · obtain ⟨r, hr, -, hl, -⟩ := listInsertNode_after_ok h hz v hafter
        exact ⟨(r.mem, r.lst), _, by simp [Op.apply, hr], hl⟩
  | del o =>
    have hmem : o ∈ ps := by rw [← h.listNodes_eq]; exact hadm
    obtain ⟨xs, ys, rfl⟩ := List.append_of_mem hmem
    obtain ⟨r, hr, hl, -⟩ := listDelNode_ok h
    exact ⟨r, _, hr, hl⟩
  | rotate =>
    rcases snoc_cases ps with rfl | ⟨xs, t, rfl⟩
    · exact ⟨(m, l), [], listRotate_short h (by simp), h⟩
    · by_cases hxs : xs = []
      · subst hxs
        exact ⟨(m, l), _, listRotate_short h (by simp), h⟩
      · obtain ⟨r, hr, hl, -⟩ := listRotate_long h hxs
        exact ⟨r, _, hr, hl⟩
  | setDup f => exact ⟨_, ps, rfl, h⟩
  | setFree f => exact ⟨_, ps, rfl, h⟩
  | setMatch f => exact ⟨_, ps, rfl, h⟩

theorem run_isList {m : Mem} {l : list} {ps : List Nat} (h : IsList m l ps) (ops : List Op)
    {s : Mem × list} (hrun : run m l ops = some s) : ∃ ps2, IsList s.1 s.2 ps2 := by
  induction ops generalizing m l ps with
  | nil =>
    simp only [run, Option.some.injEq] at hrun
    subst hrun
    exact ⟨ps, h⟩
  | cons op ops ih =>
    simp only [run] at hrun
    split at hrun
    · rename_i hadm
      obtain ⟨s1, ps1, hs1, hl1⟩ := step_isList h op hadm
      rw [hs1] at hrun
      exact ih hl1 hrun
    · cases hrun

theorem run_append (m : Mem) (l : list) (ops ops2 : List Op) :
    run m l (ops ++ ops2) = (run m l ops).bind fun s => run s.1 s.2 ops2 := by
  induction ops generalizing m l with
  | nil => rfl
  | cons op ops ih =>
    simp only [List.cons_append, run]
    split
    · cases op.apply m l with
      | none => rfl
      | some s => exact ih s.1 s.2
    · rfl

/-- A sequence of admissible calls on a well-formed list can always be
extended by one more admissible call: no admissible call is left without a
result. -/
theorem run_extend {m : Mem} {l : list} {ps : List Nat} (h : IsList m l ps) (ops : List Op)
    {s : Mem × list} (hrun : run m l ops = some s) (op : Op) (hadm : op.admissible s.1 s.2) :
    ∃ s2, run m l (ops ++ [op]) = some s2 := by
  obtain ⟨ps1, h1⟩ := run_isList h ops hrun
  obtain ⟨s2, -, hs2, -⟩ := step_isList h1 op hadm
  refine ⟨s2, ?_⟩
  rw [run_append, hrun]
  simp [run, hadm, hs2]

/-! ## Invariants of the reachable states -/

/-- C1: in every state reached from `listCreate()` by a sequence of admissible
calls (add at head, add at tail, insert, delete; rotations and hook setters are
allowed as well), following `next` from `head` ends after exactly `len` nodes,
and so does following `prev` from `tail`. -/
theorem len_eq_node_counts (z : Option Nat) (m0 : Mem) (l0 : list) (ops : List Op)
    (s : Mem × list) (hcreate : listCreate z = some l0) (hrun : run m0 l0 ops = some s)
    (fuel : Nat) (hfuel : s.2.len ≤ fuel) :
    (followNext s.1 fuel s.2.head).map List.length = some s.2.len ∧
      (followPrev s.1 fuel s.2.tail).map List.length = some s.2.len := by
  obtain ⟨ps, h⟩ := run_isList (isList_create hcreate m0) ops hrun
  rw [h.followNext_eq hfuel, h.followPrev_eq hfuel, h.2.2.2.2.1]
  simp

theorem len_eq_node_counts_witness :
    (followNext exState.1 3 exState.2.head).map List.length = some exState.2.len ∧
      (followPrev exState.1 3 exState.2.tail).map List.length = some exState.2.len :=
  len_eq_node_counts (some 0) exMem0 exList0 exOps exState rfl rfl 3 (by decide)

/-- C2: in every state reached from `listCreate()` by a sequence of admissible
calls (add at head, add at tail, insert, delete, rotate), `head` is `NULL` iff
`tail` is `NULL` iff `len` is 0, and in a list that is not empty the `prev` of
the head node and the `next` of the tail node are `NULL`. -/
theorem endpoints_of_reachable (z : Option Nat) (m0 : Mem) (l0 : list) (ops : List Op)
    (s : Mem × list) (hcreate : listCreate z = some l0) (hrun : run m0 l0 ops = some s) :
    (s.2.head = none ↔ s.2.tail = none) ∧ (s.2.tail = none ↔ s.2.len = 0) ∧
      (s.2.len ≠ 0 → getPrev s.1 s.2.head = some none ∧ getNext s.1 s.2.tail = some none) := by
  obtain ⟨ps, hseg, -, hhead, htail, hlen, -⟩ := run_isList (isList_create hcreate m0) ops hrun
  rw [hhead, htail, hlen]
  rcases snoc_cases ps with rfl | ⟨xs, t, rfl⟩
  · simp
  · have ht := ((seg_append _ _ _ _ _).mp hseg).2
    rw [seg_cons] at ht
    refine ⟨by simp [lastOr_append, firstOr_append]; cases xs <;> simp,
      by simp [lastOr_append], fun _ => ⟨?_, ?_⟩⟩
    · cases xs with
      | nil => simpa using ht.1
      | cons a xs => exact hseg.1
    · simpa [lastOr_append] using ht.2.1

theorem endpoints_of_reachable_witness :
    (exState.2.head = none ↔ exState.2.tail = none) ∧
      (exState.2.tail = none ↔ exState.2.len = 0) ∧
      (exState.2.len ≠ 0 → getPrev exState.1 exState.2.head = some none ∧
        getNext exState.1 exState.2.tail = some none) :=
  endpoints_of_reachable (some 0) exMem0 exList0 exOps exState rfl rfl

/-- In a segment, `a->next == b` iff `b->prev == a` for its nodes `a` and `b`. -/
theorem seg_links_symmetric {m : Mem} {ps : List Nat} (h : Seg m ps none none)
    {a b : Nat} (ha : a ∈ ps) (hb : b ∈ ps) :
    getNext m (some a) = some (some b) ↔ getPrev m (some b) = some (some a) := by
  constructor
  · intro hab
    obtain ⟨xs, ys, rfl⟩ := List.append_of_mem ha
    have h2 := ((seg_append _ _ _ _ _).mp h).2
    rw [seg_cons] at h2
    obtain ⟨-, hn, hrest⟩ := h2
    rw [hab] at hn
    cases ys with
    | nil => simp at hn
    | cons y ys =>
      simp only [firstOr_cons, Option.some.injEq] at hn
      subst hn
      exact hrest.1
  · intro hba
    obtain ⟨xs, ys, rfl⟩ := List.append_of_mem hb
    have hsp := (seg_append _ _ _ _ _).mp h
    have h2 := hsp.2
    rw [seg_cons] at h2
    obtain ⟨hp, -, -⟩ := h2
    rw [hba] at hp
    rcases snoc_cases xs with rfl | ⟨xs, x, rfl⟩
    · simp at hp
    · simp only [lastOr_append, lastOr_cons, lastOr_nil, Option.some.injEq] at hp
      subst hp
      have h3 := ((seg_append _ _ _ _ _).mp hsp.1).2
      rw [seg_cons] at h3
      simpa using h3.2.1

/-- C3: in every state reached from `listCreate()` by a sequence of admissible
calls (add at head, add at tail, insert, delete, rotate), for any two nodes `a`
and `b` of the list `a->next == b` iff `b->prev == a`, and the nodes met by
following `prev` from `tail` are the reverse of those met by following `next`
from `head`. -/
theorem links_symmetric_of_reachable (z : Option Nat) (m0 : Mem) (l0 : list) (ops : List Op)
    (s : Mem × list) (hcreate : listCreate z = some l0) (hrun : run m0 l0 ops = some s) :
    (∀ a b, a ∈ listNodes s.1 s.2 → b ∈ listNodes s.1 s.2 →
      (getNext s.1 (some a) = some (some b) ↔ getPrev s.1 (some b) = some (some a))) ∧
    ∀ fuel, s.2.len ≤ fuel →
      followNext s.1 fuel s.2.head = some (listNodes s.1 s.2) ∧
      followPrev s.1 fuel s.2.tail = some (listNodes s.1 s.2).reverse := by
  obtain ⟨ps, h⟩ := run_isList (isList_create hcreate m0) ops hrun
  rw [h.listNodes_eq]
  exact ⟨fun a b ha hb => seg_links_symmetric h.1 ha hb,
    fun fuel hfuel => ⟨h.followNext_eq hfuel, h.followPrev_eq hfuel⟩⟩

theorem links_symmetric_of_reachable_witness :
    (getNext exState.1 (some 4) = some (some 3) ↔ getPrev exState.1 (some 3) = some (some 4)) ∧
      followNext exState.1 3 exState.2.head = some (listNodes exState.1 exState.2) ∧
      followPrev exState.1 3 exState.2.tail = some (listNodes exState.1 exState.2).reverse :=
  have h := links_symmetric_of_reachable (some 0) exMem0 exList0 exOps exState rfl rfl
  ⟨h.1 4 3 (by decide) (by decide), h.2 3 (by decide)⟩

/-! ## Insertion -/

theorem valuesOf_cons (m : Mem) (a : Nat) (ps : List Nat) :
    valuesOf m (a :: ps) = (m.nodes a).bind listNode.value :: valuesOf m ps := rfl

theorem valuesOf_append (m : Mem) (xs ys : List Nat) :
    valuesOf m (xs ++ ys) = valuesOf m xs ++ valuesOf m ys := by
  simp [valuesOf]

theorem valuesOf_keep {m m2 : Mem} {a : Nat} {ps : List Nat} (ha : a ∉ ps)
    (h : ∀ b, b ≠ a → (m2.nodes b).bind listNode.value = (m.nodes b).bind listNode.value) :
    valuesOf m2 ps = valuesOf m ps :=
  valuesOf_congr fun b hb => h b (by rintro rfl; exact ha hb)

/-- C4: on a well-formed list with nodes `ps`, a successful `listAddNodeHead`
leaves a well-formed list with nodes `a :: ps` and values `value :: vs`, and a
successful `listAddNodeTail` one with nodes `ps ++ [a]` and values
`vs ++ [value]`, where `a` is the new node and `vs` the values before; both
return the list, add exactly 1 to `len`, keep the three hooks and call none. -/
theorem add_node_sequence (m : Mem) (l : list) (ps : List Nat) (a : Nat) (value : Ptr)
    (h : IsList m l ps) (hz : zmallocOk m (some a)) :
    (∃ r, listAddNodeHead m l (some a) value = some r ∧ r.ok = true ∧
      IsList r.mem r.lst (a :: ps) ∧ listNodes r.mem r.lst = a :: ps ∧
      valuesOf r.mem (a :: ps) = value :: valuesOf m ps ∧
      r.lst.len = l.len + 1 ∧ r.lst.dup = l.dup ∧ r.lst.free = l.free ∧
      r.lst.match_ = l.match_ ∧ r.mem.calls = m.calls) ∧
    (∃ r, listAddNodeTail m l (some a) value = some r ∧ r.ok = true ∧
      IsList r.mem r.lst (ps ++ [a]) ∧ listNodes r.mem r.lst = ps ++ [a] ∧
      valuesOf r.mem (ps ++ [a]) = valuesOf m ps ++ [value] ∧
      r.lst.len = l.len + 1 ∧ r.lst.dup = l.dup ∧ r.lst.free = l.free ∧
      r.lst.match_ = l.match_ ∧ r.mem.calls = m.calls) := by
  have hnot := h.fresh_not_mem hz.1
  constructor
  · obtain ⟨r, hr, hok, hl, hna, hval, -, hcalls, hlst⟩ := listAddNodeHead_ok h hz value
    refine ⟨r, hr, hok, hl, hl.listNodes_eq, ?_, ?_, ?_, ?_, ?_, hcalls⟩
    · rw [valuesOf_cons, hna, valuesOf_keep hnot hval]; rfl
    all_goals rw [hlst]
  · obtain ⟨r, hr, hok, hl, hna, hval, -, hcalls, hlst⟩ := listAddNodeTail_ok h hz value
    refine ⟨r, hr, hok, hl, hl.listNodes_eq, ?_, ?_, ?_, ?_, ?_, hcalls⟩
    · rw [valuesOf_append, valuesOf_cons, hna, valuesOf_keep hnot hval]; rfl
    all_goals rw [hlst]

theorem add_node_sequence_witness :
    (∃ r, listAddNodeHead exState.1 exState.2 (some 2) (some 50) = some r ∧ r.ok = true ∧
      IsList r.mem r.lst [2, 4, 3, 1] ∧ listNodes r.mem r.lst = [2, 4, 3, 1] ∧
      valuesOf r.mem [2, 4, 3, 1] = some 50 :: valuesOf exState.1 [4, 3, 1] ∧
      r.lst.len = exState.2.len + 1 ∧ r.lst.dup = exState.2.dup ∧
      r.lst.free = exState.2.free ∧ r.lst.match_ = exState.2.match_ ∧
      r.mem.calls = exState.1.calls) ∧
    (∃ r, listAddNodeTail exState.1 exState.2 (some 2) (some 50) = some r ∧ r.ok = true ∧
      IsList r.mem r.lst [4, 3, 1, 2] ∧ listNodes r.mem r.lst = [4, 3, 1, 2] ∧
      valuesOf r.mem [4, 3, 1, 2] = valuesOf exState.1 [4, 3, 1] ++ [some 50] ∧
      r.lst.len = exState.2.len + 1 ∧ r.lst.dup = exState.2.dup ∧
      r.lst.free = exState.2.free ∧ r.lst.match_ = exState.2.match_ ∧
      r.mem.calls = exState.1.calls) :=
  add_node_sequence exState.1 exState.2 [4, 3, 1] 2 (some 50) (by decide) (by decide)

theorem lastOr_eq_self_iff {ys : List Nat} {x : Nat} (hx : x ∉ ys) :
    lastOr ys (some x) = some x ↔ ys = [] := by
  constructor
  · intro h
    by_contra hne
    obtain ⟨y, hy, he⟩ := lastOr_mem (some x) hne
    rw [he] at h
    cases h
    exact hx hy
  · rintro rfl; rfl

theorem firstOr_eq_self_iff {ys : List Nat} {x : Nat} (hx : x ∉ ys) :
    firstOr ys (some x) = some x ↔ ys = [] := by
  constructor
  · intro h
    by_contra hne
    obtain ⟨y, hy, he⟩ := firstOr_mem (some x) hne
    rw [he] at h
    cases h
    exact hx hy
  · rintro rfl; rfl

theorem lastOr_cases (ys : List Nat) (x : Nat) :
    lastOr ys (some x) = some x ∨ ∃ y ∈ ys, lastOr ys (some x) = some y := by
  cases ys with
  | nil => exact Or.inl rfl
  | cons y ys => exact Or.inr (lastOr_mem (some x) (List.cons_ne_nil y ys))

theorem firstOr_cases (ys : List Nat) (x : Nat) :
    firstOr ys (some x) = some x ∨ ∃ y ∈ ys, firstOr ys (some x) = some y := by
  cases ys with
  | nil => exact Or.inl rfl
  | cons y ys => exact Or.inr (firstOr_mem (some x) (List.cons_ne_nil y ys))

/-- C5: on a well-formed list with nodes `xs ++ o :: ys`, a successful
`listInsertNode` at the node `o` leaves a well-formed list with nodes
`xs ++ o :: a :: ys` when `after` is not zero and `xs ++ a :: o :: ys` when it
is zero, the new node `a` holding `value` and every other node its old value;
`len` grows by 1, `tail` becomes the new node iff `after` is not zero and `o`
was the tail, `head` becomes the new node iff `after` is zero and `o` was the
head. -/
theorem insert_node_sequence (m : Mem) (l : list) (xs ys : List Nat) (o a : Nat)
    (value : Ptr) (after : Int) (h : IsList m l (xs ++ o :: ys))
    (hz : zmallocOk m (some a)) :
    ∃ r, listInsertNode m l (some o) value after (some a) = some r ∧ r.ok = true ∧
      IsList r.mem r.lst (if after ≠ 0 then xs ++ o :: a :: ys else xs ++ a :: o :: ys) ∧
      listNodes r.mem r.lst = (if after ≠ 0 then xs ++ o :: a :: ys else xs ++ a :: o :: ys) ∧
      valuesOf r.mem (if after ≠ 0 then xs ++ o :: a :: ys else xs ++ a :: o :: ys) =
        (if after ≠ 0 then valuesOf m xs ++ valuesOf m [o] ++ [value] ++ valuesOf m ys
         else valuesOf m xs ++ [value] ++ valuesOf m [o] ++ valuesOf m ys) ∧
      r.lst.len = l.len + 1 ∧
      (r.lst.tail = some a ↔ after ≠ 0 ∧ l.tail = some o) ∧
      (r.lst.head = some a ↔ after = 0 ∧ l.head = some o) := by
  have hnot := h.fresh_not_mem hz.1
  have hnd := h.2.1
  have hhead : l.head = firstOr xs (some o) := by rw [h.2.2.1, firstOr_append]; rfl
  have htail : l.tail = lastOr ys (some o) := by rw [h.2.2.2.1, lastOr_append]; rfl
  have hoa : o ≠ a := by rintro rfl; exact hnot (by simp)
  have haxs : a ∉ xs := fun e => hnot (by simp [e])
  have hays : a ∉ ys := fun e => hnot (by simp [e])
  have hoxs : o ∉ xs := fun e => (List.nodup_append.mp hnd).2.2 e (by simp)
  have hoys : o ∉ ys := (List.nodup_cons.mp (List.nodup_append.mp hnd).2.1).1
  by_cases hafter : after = 0
  · subst hafter
    obtain ⟨r, hr, hok, hl, hna, hval, -, -, hlst⟩ := listInsertNode_before_ok h hz value
    simp only [ne_eq, not_true_eq_false, if_false]
    refine ⟨r, hr, hok, hl, hl.listNodes_eq, ?_, by rw [hlst], ?_, ?_⟩
    · rw [valuesOf_append, valuesOf_cons, hna, valuesOf_keep haxs hval,
        valuesOf_keep (show a ∉ o :: ys by simp [hoa.symm, hays]) hval]
      simp [valuesOf]
    · rw [hlst]
      simp only [false_and, iff_false]
      rw [htail]
      rcases lastOr_cases ys o with e | ⟨y, hy, e⟩ <;> rw [e]
      · simpa using hoa
      · intro e2; cases e2; exact hays hy
    · rw [hlst]
      simp only [true_and]
      rw [hhead, firstOr_eq_self_iff haxs, firstOr_eq_self_iff hoxs]
  · obtain ⟨r, hr, hok, hl, hna, hval, -, -, hlst⟩ :=
      listInsertNode_after_ok h hz value hafter
    simp only [ne_eq, hafter, not_false_eq_true, if_true]
    refine ⟨r, hr, hok, hl, hl.listNodes_eq, ?_, by rw [hlst], ?_, ?_⟩
    · rw [valuesOf_append, valuesOf_cons, valuesOf_cons, hna, valuesOf_keep haxs hval,
        valuesOf_keep hays hval, hval o hoa]
      simp [valuesOf]
    · rw [hlst]
      simp only [true_and]
      rw [htail, lastOr_eq_self_iff hays, lastOr_eq_self_iff hoys]
    · rw [hlst]
      simp only [false_and, iff_false]
      show l.head ≠ some a
      rw [hhead]
      rcases firstOr_cases xs o with e | ⟨y, hy, e⟩ <;> rw [e]
      · simpa using hoa
      · intro e2; cases e2; exact haxs hy

theorem insert_node_sequence_witness :
    ∃ r, listInsertNode exState.1 exState.2 (some 1) (some 99) 1 (some 2) = some r ∧
      r.ok = true ∧
      IsList r.mem r.lst (if (1 : Int) ≠ 0 then [4, 3] ++ 1 :: 2 :: [] else [4, 3] ++ 2 :: 1 :: []) ∧
      listNodes r.mem r.lst =
        (if (1 : Int) ≠ 0 then [4, 3] ++ 1 :: 2 :: [] else [4, 3] ++ 2 :: 1 :: []) ∧
      valuesOf r.mem (if (1 : Int) ≠ 0 then [4, 3] ++ 1 :: 2 :: [] else [4, 3] ++ 2 :: 1 :: []) =
        (if (1 : Int) ≠ 0 then
          valuesOf exState.1 [4, 3] ++ valuesOf exState.1 [1] ++ [some 99] ++
            valuesOf exState.1 []
         else valuesOf exState.1 [4, 3] ++ [some 99] ++ valuesOf exState.1 [1] ++
            valuesOf exState.1 []) ∧
      r.lst.len = exState.2.len + 1 ∧
      (r.lst.tail = some 2 ↔ (1 : Int) ≠ 0 ∧ exState.2.tail = some 1) ∧
      (r.lst.head = some 2 ↔ (1 : Int) = 0 ∧ exState.2.head = some 1) :=
  insert_node_sequence exState.1 exState.2 [4, 3] [] 1 2 (some 99) 1 (by decide) (by decide)

/-! ## Deletion -/

/-- C6: on a well-formed list with nodes `xs ++ o :: ys`, `listDelNode` of the
node `o` leaves a well-formed list with nodes `xs ++ ys`, every remaining node
holding its old value; `len` drops by exactly 1, `head` (`tail`) moves to the
successor (predecessor) of `o` when `o` was the head (tail) and stays
otherwise, the node is freed, the hooks are kept, and the `free` hook, if set,
is called exactly once, on the value of `o`. -/
theorem del_node_sequence (m : Mem) (l : list) (xs ys : List Nat) (o : Nat)
    (h : IsList m l (xs ++ o :: ys)) :
    ∃ r v, listDelNode m l (some o) = some r ∧ getValue m (some o) = some v ∧
      IsList r.1 r.2 (xs ++ ys) ∧ listNodes r.1 r.2 = xs ++ ys ∧
      valuesOf r.1 (xs ++ ys) = valuesOf m (xs ++ ys) ∧
      r.2.len + 1 = l.len ∧
      (l.head = some o → getNext m (some o) = some r.2.head) ∧
      (l.head ≠ some o → r.2.head = l.head) ∧
      (l.tail = some o → getPrev m (some o) = some r.2.tail) ∧
      (l.tail ≠ some o → r.2.tail = l.tail) ∧
      r.1.nodes o = none ∧
      r.2.dup = l.dup ∧ r.2.free = l.free ∧ r.2.match_ = l.match_ ∧
      (∀ f, l.free = some f → r.1.calls = m.calls ++ [(f, v)]) ∧
      (l.free = none → r.1.calls = m.calls) := by
  have hnd := h.2.1
  have hhead : l.head = firstOr xs (some o) := by rw [h.2.2.1, firstOr_append]; rfl
  have htail : l.tail = lastOr ys (some o) := by rw [h.2.2.2.1, lastOr_append]; rfl
  have hlen : l.len = xs.length + ys.length + 1 := by
    rw [h.2.2.2.2.1]; simp; omega
  have hoxs : o ∉ xs := fun e => (List.nodup_append.mp hnd).2.2 e (by simp)
  have hoys : o ∉ ys := (List.nodup_cons.mp (List.nodup_append.mp hnd).2.1).1
  have hoseg := ((seg_append _ _ _ _ _).mp h.1).2
  obtain ⟨n, hn, hp, hnx, -⟩ := (seg_cons_iff _ _ _ _ _).mp hoseg
  obtain ⟨r, hr, hl, hfreed, hval, -, hcalls, hlst⟩ := listDelNode_ok h
  have hoall : o ∉ xs ++ ys := by
    intro e
    rcases List.mem_append.mp e with e | e
    · exact hoxs e
    · exact hoys e
  refine ⟨r, n.value, hr, by simp [getValue_some, hn], hl, hl.listNodes_eq,
    valuesOf_keep hoall hval, ?_, ?_, ?_, ?_, ?_, hfreed, by rw [hlst], by rw [hlst],
    by rw [hlst], ?_, ?_⟩
  · rw [hlst, hlen]
    show xs.length + ys.length + 1 - 1 + 1 = xs.length + ys.length + 1
    omega
  · intro e
    rw [hhead, firstOr_eq_self_iff hoxs] at e
    subst e
    rw [hlst, getNext_some, hn]
    simp [hnx]
  · intro e
    rw [hhead] at e ⊢
    rw [hlst]
    cases xs with
    | nil => exact absurd rfl e
    | cons x xs => rfl
  · intro e
    rw [htail, lastOr_eq_self_iff hoys] at e
    subst e
    rw [hlst, getPrev_some, hn]
    simp [hp]
  · intro e
    rw [htail] at e ⊢
    rw [hlst]
    cases ys with
    | nil => exact absurd rfl e
    | cons y ys => simp [lastOr_append]
  · intro f hf
    rw [hcalls, hn]
    simp [freeCalls, hf]
  · intro hf
    rw [hcalls]
    simp [freeCalls, hf]

theorem del_node_sequence_witness :
    ∃ r v, listDelNode exState.1 exState.2 (some 3) = some r ∧
      getValue exState.1 (some 3) = some v ∧
      IsList r.1 r.2 ([4] ++ [1]) ∧ listNodes r.1 r.2 = [4] ++ [1] ∧
      valuesOf r.1 ([4] ++ [1]) = valuesOf exState.1 ([4] ++ [1]) ∧
      r.2.len + 1 = exState.2.len ∧
      (exState.2.head = some 3 → getNext exState.1 (some 3) = some r.2.head) ∧
      (exState.2.head ≠ some 3 → r.2.head = exState.2.head) ∧
      (exState.2.tail = some 3 → getPrev exState.1 (some 3) = some r.2.tail) ∧
      (exState.2.tail ≠ some 3 → r.2.tail = exState.2.tail) ∧
      r.1.nodes 3 = none ∧
      r.2.dup = exState.2.dup ∧ r.2.free = exState.2.free ∧
      r.2.match_ = exState.2.match_ ∧
      (∀ f, exState.2.free = some f → r.1.calls = exState.1.calls ++ [(f, v)]) ∧
      (exState.2.free = none → r.1.calls = exState.1.calls) :=
  del_node_sequence exState.1 exState.2 [4] [1] 3 (by decide)

/-! ## Iteration -/

theorem listNext_none (m : Mem) (d : Int) :
    listNext m ⟨none, d⟩ = some (⟨none, d⟩, none) := by
  simp [listNext]

theorem listNext_head {m : Mem} {a : Nat} {n : listNode} (hn : m.nodes a = some n) :
    listNext m ⟨some a, AL_START_HEAD⟩ = some (⟨n.next, AL_START_HEAD⟩, some a) := by
  simp [listNext, getNext_some, hn]

theorem listNext_tail {m : Mem} {a : Nat} {n : listNode} (hn : m.nodes a = some n)
    {d : Int} (hd : d ≠ AL_START_HEAD) :
    listNext m ⟨some a, d⟩ = some (⟨n.prev, d⟩, some a) := by
  simp [listNext, getPrev_some, hn, hd]

theorem listNextN_succ (m : Mem) (count : Nat) (iter : listIter) :
    listNextN m (count + 1) iter =
      (listNext m iter).bind fun s =>
        (listNextN m count s.1).bind fun t => some (t.1, s.2 :: t.2) := rfl

/-- Calls of `listNext` one after the other. -/
theorem listNextN_add (m : Mem) (j k : Nat) (iter : listIter) :
    listNextN m (j + k) iter =
      (listNextN m j iter).bind fun s =>
        (listNextN m k s.1).bind fun t => some (t.1, s.2 ++ t.2) := by
  induction j generalizing iter with
  | zero =>
    simp only [Nat.zero_add, listNextN, Option.some_bind, List.nil_append]
    cases listNextN m k iter <;> rfl
  | succ j ih =>
    rw [show j + 1 + k = (j + k) + 1 by omega, listNextN_succ, listNextN_succ]
    cases h1 : listNext m iter with
    | none => rfl
    | some s =>
      simp only [Option.some_bind, ih]
      cases h2 : listNextN m j s.1 with
      | none => rfl
      | some t =>
        simp only [Option.some_bind]
        cases h3 : listNextN m k t.1 with
        | none => rfl
        | some u => simp

/-- An exhausted iterator keeps returning `NULL`. -/
theorem listNextN_exhausted (m : Mem) (d : Int) (k : Nat) :
    listNextN m k ⟨none, d⟩ = some (⟨none, d⟩, List.replicate k none) := by
  induction k with
  | zero => rfl
  | succ k ih => rw [listNextN_succ, listNext_none]; simp [ih, List.replicate_succ]

/-- A forward iterator standing at the first node of a segment returns its
nodes in order and then stands at the segment's successor. -/
theorem listNextN_forward {m : Mem} {xs : List Nat} {prev nxt : Option Nat}
    (h : Seg m xs prev nxt) :
    listNextN m xs.length ⟨firstOr xs nxt, AL_START_HEAD⟩ =
      some (⟨nxt, AL_START_HEAD⟩, xs.map some) := by
  induction xs generalizing prev with
  | nil => rfl
  | cons a xs ih =>
    obtain ⟨n, hn, -, h2, h3⟩ := (seg_cons_iff _ _ _ _ _).mp h
    rw [List.length_cons, listNextN_succ, firstOr_cons, listNext_head hn]
    simp only [Option.some_bind, h2, ih h3]
    rfl

/-- A backward iterator standing at the last node of a segment returns its
nodes in reverse order and then stands at the segment's predecessor. -/
theorem listNextN_backward {m : Mem} {xs : List Nat} {prev nxt : Option Nat}
    (h : Seg m xs prev nxt) {d : Int} (hd : d ≠ AL_START_HEAD) :
    listNextN m xs.length ⟨lastOr xs prev, d⟩ = some (⟨prev, d⟩, xs.reverse.map some) := by
  induction xs using List.reverseRecOn generalizing nxt with
  | nil => rfl
  | append_singleton xs a ih =>
    rw [seg_append] at h
    obtain ⟨h1, h2⟩ := h
    obtain ⟨n, hn, hp, -, -⟩ := (seg_cons_iff _ _ _ _ _).mp h2
    rw [List.length_append, List.length_singleton, listNextN_succ, lastOr_append,
      lastOr_cons, lastOr_nil, listNext_tail hn hd]
    simp only [Option.some_bind, hp, ih h1]
    simp

/-- Any number of calls on a forward iterator standing at the head of a list
segment that ends with `NULL`. -/
theorem listNextN_forward_any {m : Mem} {ys : List Nat} {prev : Option Nat}
    (h : Seg m ys prev none) (j : Nat) :
    listNextN m j ⟨firstOr ys none, AL_START_HEAD⟩ =
      some (⟨firstOr (ys.drop j) none, AL_START_HEAD⟩,
        (ys.take j).map some ++ List.replicate (j - ys.length) none) := by
  by_cases hj : j ≤ ys.length
  · have hsplit : ys = ys.take j ++ ys.drop j := (List.take_append_drop j ys).symm
    have h2 : Seg m (ys.take j ++ ys.drop j) prev none := by rw [← hsplit]; exact h
    rw [seg_append] at h2
    have h3 := listNextN_forward h2.1
    rw [List.length_take, Nat.min_eq_left hj, ← firstOr_append, ← hsplit] at h3
    rw [h3, Nat.sub_eq_zero_of_le hj]
    simp
  · obtain ⟨k, rfl⟩ := Nat.exists_eq_add_of_le (Nat.le_of_not_le hj)
    have h3 := listNextN_forward h
    rw [listNextN_add, h3]
    simp only [Option.some_bind, listNextN_exhausted]
    rw [List.drop_of_length_le (by omega), List.take_of_length_le (by omega),
      Nat.add_sub_cancel_left]
    rfl

/-- Any number of calls on a backward iterator standing at the tail of a list
segment that starts with `NULL`. -/
theorem listNextN_backward_any {m : Mem} {xs : List Nat} {nxt : Option Nat}
    (h : Seg m xs none nxt) {d : Int} (hd : d ≠ AL_START_HEAD) (j : Nat) :
    listNextN m j ⟨lastOr xs none, d⟩ =
      some (⟨lastOr (xs.take (xs.length - j)) none, d⟩,
        (xs.reverse.take j).map some ++ List.replicate (j - xs.length) none) := by
  by_cases hj : j ≤ xs.length
  · have hsplit : xs = xs.take (xs.length - j) ++ xs.drop (xs.length - j) :=
      (List.take_append_drop _ xs).symm
    have h2 : Seg m (xs.take (xs.length - j) ++ xs.drop (xs.length - j)) none nxt := by
      rw [← hsplit]; exact h
    rw [seg_append] at h2
    have h3 := listNextN_backward h2.2 hd
    rw [List.length_drop, Nat.sub_sub_self hj, ← lastOr_append, ← hsplit] at h3
    have hrev : (xs.drop (xs.length - j)).reverse = xs.reverse.take j := by
      rw [List.reverse_drop, Nat.sub_sub_self hj]
    rw [h3, Nat.sub_eq_zero_of_le hj, hrev]
    simp
  · obtain ⟨k, rfl⟩ := Nat.exists_eq_add_of_le (Nat.le_of_not_le hj)
    have h3 := listNextN_backward h hd
    rw [listNextN_add, h3]
    simp only [Option.some_bind, listNextN_exhausted]
    rw [Nat.sub_eq_zero_of_le (Nat.le_add_right _ _), List.take_zero,
      List.take_of_length_le (by rw [List.length_reverse]; omega), Nat.add_sub_cancel_left]
    rfl

/-- C7: on a well-formed list with nodes `ps`, an iterator obtained from
`listGetIterator(list, AL_START_HEAD)` or reset by `listRewind`, whatever it
held before, returns over `len` calls of `listNext` the nodes `ps` in order,
one obtained with `AL_START_TAIL` or reset by `listRewindTail` returns them in
reverse order, and each of the `k` further calls returns `NULL`. -/
theorem iterator_yields_nodes (m : Mem) (l : list) (ps : List Nat) (h : IsList m l ps)
    (z : Nat) (li : listIter) (k : Nat) :
    (∃ it, listGetIterator l AL_START_HEAD (some z) = some it ∧
      listNextN m (l.len + k) it =
        some (⟨none, AL_START_HEAD⟩, ps.map some ++ List.replicate k none)) ∧
    listNextN m (l.len + k) (listRewind l li) =
      some (⟨none, AL_START_HEAD⟩, ps.map some ++ List.replicate k none) ∧
    (∃ it, listGetIterator l AL_START_TAIL (some z) = some it ∧
      listNextN m (l.len + k) it =
        some (⟨none, AL_START_TAIL⟩, ps.reverse.map some ++ List.replicate k none)) ∧
    listNextN m (l.len + k) (listRewindTail l li) =
      some (⟨none, AL_START_TAIL⟩, ps.reverse.map some ++ List.replicate k none) := by
  obtain ⟨hseg, -, hhead, htail, hlen, -⟩ := h
  have hd : AL_START_TAIL ≠ AL_START_HEAD := by decide
  have hfwd : listNextN m (l.len + k) ⟨l.head, AL_START_HEAD⟩ =
      some (⟨none, AL_START_HEAD⟩, ps.map some ++ List.replicate k none) := by
    rw [hhead, hlen, listNextN_add, listNextN_forward hseg]
    simp [listNextN_exhausted]
  have hbwd : listNextN m (l.len + k) ⟨l.tail, AL_START_TAIL⟩ =
      some (⟨none, AL_START_TAIL⟩, ps.reverse.map some ++ List.replicate k none) := by
    rw [htail, hlen, listNextN_add, listNextN_backward hseg hd]
    simp [listNextN_exhausted]
  refine ⟨⟨_, rfl, ?_⟩, hfwd, ⟨_, rfl, ?_⟩, hbwd⟩
  · simpa using hfwd
  · simpa [hd] using hbwd

theorem iterator_yields_nodes_witness :
    (∃ it, listGetIterator exState.2 AL_START_HEAD (some 9) = some it ∧
      listNextN exState.1 (exState.2.len + 2) it =
        some (⟨none, AL_START_HEAD⟩, [4, 3, 1].map some ++ List.replicate 2 none)) ∧
    listNextN exState.1 (exState.2.len + 2) (listRewind exState.2 ⟨some 3, 1⟩) =
      some (⟨none, AL_START_HEAD⟩, [4, 3, 1].map some ++ List.replicate 2 none) ∧
    (∃ it, listGetIterator exState.2 AL_START_TAIL (some 9) = some it ∧
      listNextN exState.1 (exState.2.len + 2) it =
        some (⟨none, AL_START_TAIL⟩, [4, 3, 1].reverse.map some ++ List.replicate 2 none)) ∧
    listNextN exState.1 (exState.2.len + 2) (listRewindTail exState.2 ⟨some 3, 1⟩) =
      some (⟨none, AL_START_TAIL⟩, [4, 3, 1].reverse.map some ++ List.replicate 2 none) :=
  iterator_yields_nodes exState.1 exState.2 [4, 3, 1] (by decide) 9 ⟨some 3, 1⟩ 2

/-- C8: on a well-formed list with nodes `xs ++ o :: ys`, in either direction,
once `listNext` has returned the node `o` (the call number `xs.length + 1`
forward, `ys.length + 1` backward) and `o` is deleted with `listDelNode`, any
number `j` of further `listNext` calls returns in the memory after the deletion
what it returns without the deletion: the nodes after `o` in the direction of
the iteration, then `NULL`. The list is then well formed with nodes `xs ++ ys`
and `len` smaller by 1. -/
theorem delete_current_while_iterating (m : Mem) (l : list) (xs ys : List Nat) (o : Nat)
    (h : IsList m l (xs ++ o :: ys)) (li : listIter) :
    ∃ r, listDelNode m l (some o) = some r ∧
      IsList r.1 r.2 (xs ++ ys) ∧ listNodes r.1 r.2 = xs ++ ys ∧ r.2.len + 1 = l.len ∧
      (∃ it, listNextN m (xs.length + 1) (listRewind l li) = some (it, (xs ++ [o]).map some) ∧
        ∀ j, listNextN r.1 j it = listNextN m j it ∧
          (listNextN m j it).map Prod.snd =
            some ((ys.take j).map some ++ List.replicate (j - ys.length) none)) ∧
      (∃ it, listNextN m (ys.length + 1) (listRewindTail l li) =
          some (it, (o :: ys).reverse.map some) ∧
        ∀ j, listNextN r.1 j it = listNextN m j it ∧
          (listNextN m j it).map Prod.snd =
            some ((xs.reverse.take j).map some ++ List.replicate (j - xs.length) none)) := by
  obtain ⟨r, hr, hl, -⟩ := listDelNode_ok h
  have hd : AL_START_TAIL ≠ AL_START_HEAD := by decide
  have hlen : l.len = xs.length + ys.length + 1 := by
    rw [h.2.2.2.2.1]; simp; omega
  have hlen2 : r.2.len = xs.length + ys.length := by
    rw [hl.2.2.2.2.1]; simp
  obtain ⟨hseg, -, hhead, htail, -, -⟩ := h
  have hseg2 := (seg_append _ _ _ _ _).mp hl.1
  have hsp := (seg_append _ _ _ _ _).mp hseg
  have hys : Seg m ys (some o) none := (seg_cons _ _ _ _ _).mp hsp.2 |>.2.2
  refine ⟨r, hr, hl, hl.listNodes_eq, by rw [hlen, hlen2], ?_, ?_⟩
  · have hfront : Seg m (xs ++ [o]) none (firstOr ys none) := by
      have e : xs ++ o :: ys = (xs ++ [o]) ++ ys := by simp
      rw [e, seg_append] at hseg
      exact hseg.1
    have h1 := listNextN_forward hfront
    rw [List.length_append, List.length_singleton] at h1
    refine ⟨⟨firstOr ys none, AL_START_HEAD⟩, ?_, fun j => ?_⟩
    · rw [← h1]
      simp [listRewind, hhead, firstOr_append]
    · rw [listNextN_forward_any hseg2.2 j, listNextN_forward_any hys j]
      exact ⟨rfl, rfl⟩
  · have h1 := listNextN_backward hsp.2 hd
    rw [List.length_cons] at h1
    refine ⟨⟨lastOr xs none, AL_START_TAIL⟩, ?_, fun j => ?_⟩
    · rw [← h1]
      simp [listRewindTail, htail, lastOr_append]
    · have hxs : Seg m xs none (some o) := by simpa using hsp.1
      rw [listNextN_backward_any hseg2.1 hd j, listNextN_backward_any hxs hd j]
      exact ⟨rfl, rfl⟩

theorem delete_current_while_iterating_witness :
    ∃ r, listDelNode exState.1 exState.2 (some 3) = some r ∧
      IsList r.1 r.2 ([4] ++ [1]) ∧ listNodes r.1 r.2 = [4] ++ [1] ∧
      r.2.len + 1 = exState.2.len ∧
      (∃ it, listNextN exState.1 ([4].length + 1) (listRewind exState.2 ⟨none, 0⟩) =
          some (it, ([4] ++ [3]).map some) ∧
        ∀ j, listNextN r.1 j it = listNextN exState.1 j it ∧
          (listNextN exState.1 j it).map Prod.snd =
            some (([1].take j).map some ++ List.replicate (j - [1].length) none)) ∧
      (∃ it, listNextN exState.1 ([1].length + 1) (listRewindTail exState.2 ⟨none, 0⟩) =
          some (it, (3 :: [1]).reverse.map some) ∧
        ∀ j, listNextN r.1 j it = listNextN exState.1 j it ∧
          (listNextN exState.1 j it).map Prod.snd =
            some (([4].reverse.take j).map some ++ List.replicate (j - [4].length) none)) :=
  delete_current_while_iterating exState.1 exState.2 [4] [1] 3 (by decide) ⟨none, 0⟩

/-! ## Search -/

/-- The loop of `listSearchKey` on a list segment that ends with `NULL`: with
more fuel than nodes it returns the first node whose value passes the test. -/
theorem listSearchKeyLoop_seg {m : Mem} (l : list) (key : Ptr) {ps : List Nat}
    {prev : Option Nat} (h : Seg m ps prev none) :
    ∀ fuel, ps.length < fuel →
      listSearchKeyLoop m l key fuel ⟨firstOr ps none, AL_START_HEAD⟩ =
        some (ps.find? fun a => decide (keyMatches l key ((m.nodes a).bind listNode.value))) := by
  induction ps generalizing prev with
  | nil =>
    intro fuel hfuel
    cases fuel with
    | zero => exact absurd hfuel (by simp)
    | succ fuel => simp [listSearchKeyLoop, listNext]
  | cons a ps ih =>
    intro fuel hfuel
    obtain ⟨n, hn, -, h2, h3⟩ := (seg_cons_iff _ _ _ _ _).mp h
    cases fuel with
    | zero => exact absurd hfuel (by simp)
    | succ fuel =>
      have ih2 := ih h3 fuel (by simpa using hfuel)
      rw [← h2] at ih2
      rw [listSearchKeyLoop, firstOr_cons, listNext_head hn]
      simp only [Option.bind_eq_bind, Option.some_bind, ne_eq, not_false_eq_true,
        if_true, getValue_some, hn, Option.map_some', reduceCtorEq]
      cases hm : l.match_ with
      | some f =>
        by_cases ht : f n.value key = 0
        · have : ¬ keyMatches l key n.value := by simp [keyMatches, hm, ht]
          simp [ht, ih2, hn, this]
        · have : keyMatches l key n.value := by simp [keyMatches, hm, ht]
          simp [ht, hn, this]
      | none =>
        by_cases ht : key = n.value
        · have : keyMatches l key n.value := by simp [keyMatches, hm, ht]
          simp only [ht, if_true]
          rw [ht] at this
          simp [hn, this]
        · have : ¬ keyMatches l key n.value := by simp [keyMatches, hm, ht]
          simp [ht, ih2, hn, this]

/-- C9: on a well-formed list with nodes `ps`, `listSearchKey` (given more
fuel than `len`) returns the first node, from head to tail, whose value passes
the test (`match(value, key)` non-zero when a `match` hook is set, `value`
identical to `key` otherwise), and returns `NULL` iff no node passes it. The
function only reads the memory and the list. -/
theorem search_key_first_match (m : Mem) (l : list) (ps : List Nat) (key : Ptr)
    (h : IsList m l ps) (fuel : Nat) (hfuel : l.len < fuel) :
    ∃ r, listSearchKey fuel m l key = some r ∧
      (r = none ↔ ∀ a ∈ ps, ¬ keyMatches l key ((m.nodes a).bind listNode.value)) ∧
      (∀ o, r = some o → ∃ xs ys, ps = xs ++ o :: ys ∧
        keyMatches l key ((m.nodes o).bind listNode.value) ∧
        ∀ x ∈ xs, ¬ keyMatches l key ((m.nodes x).bind listNode.value)) := by
  obtain ⟨hseg, -, hhead, -, hlen, -⟩ := h
  refine ⟨ps.find? fun a => decide (keyMatches l key ((m.nodes a).bind listNode.value)),
    ?_, ?_, ?_⟩
  · unfold listSearchKey listRewind
    rw [hhead]
    exact listSearchKeyLoop_seg l key hseg fuel (by rw [← hlen]; exact hfuel)
  · simp
  · intro o ho
    rw [List.find?_eq_some] at ho
    obtain ⟨h1, xs, ys, h2, h3⟩ := ho
    refine ⟨xs, ys, h2, by simpa using h1, fun x hx => ?_⟩
    simpa using h3 x hx

theorem search_key_first_match_witness :
    ∃ r, listSearchKey 4 exState.1 exState.2 (some 30) = some r ∧
      (r = none ↔
        ∀ a ∈ [4, 3, 1], ¬ keyMatches exState.2 (some 30)
          ((exState.1.nodes a).bind listNode.value)) ∧
      (∀ o, r = some o → ∃ xs ys, [4, 3, 1] = xs ++ o :: ys ∧
        keyMatches exState.2 (some 30) ((exState.1.nodes o).bind listNode.value) ∧
        ∀ x ∈ xs, ¬ keyMatches exState.2 (some 30) ((exState.1.nodes x).bind listNode.value)) :=
  search_key_first_match exState.1 exState.2 [4, 3, 1] (some 30) (by decide) 4 (by decide)

/-! ## Indexing -/

theorem wrapLong_of_range {x : Int} (hlo : -2 ^ 63 ≤ x) (hhi : x < 2 ^ 63) :
    wrapLong x = x := by
  unfold wrapLong
  omega

/-- The forward loop of `listIndex` on a list segment that ends with `NULL`. -/
theorem listIndexLoop_next {m : Mem} {ps : List Nat} {prev : Option Nat}
    (h : Seg m ps prev none) :
    ∀ k, listIndexLoop m listNode.next k (firstOr ps none) = some ps[k]? := by
  induction ps generalizing prev with
  | nil => intro k; cases k <;> rfl
  | cons a ps ih =>
    intro k
    obtain ⟨n, hn, -, h2, h3⟩ := (seg_cons_iff _ _ _ _ _).mp h
    cases k with
    | zero => simp [listIndexLoop]
    | succ k =>
      simp only [firstOr_cons, listIndexLoop, hn, h2, List.getElem?_cons_succ]
      exact ih h3 k

/-- The backward loop of `listIndex` on a list segment that starts with `NULL`. -/
theorem listIndexLoop_prev {m : Mem} {ps : List Nat} {nxt : Option Nat}
    (h : Seg m ps none nxt) :
    ∀ k, listIndexLoop m listNode.prev k (lastOr ps none) = some ps.reverse[k]? := by
  induction ps using List.reverseRecOn generalizing nxt with
  | nil => intro k; cases k <;> rfl
  | append_singleton ps a ih =>
    intro k
    rw [seg_append] at h
    obtain ⟨h1, h2⟩ := h
    obtain ⟨n, hn, hp, -, -⟩ := (seg_cons_iff _ _ _ _ _).mp h2
    cases k with
    | zero => simp [lastOr_append, listIndexLoop]
    | succ k =>
      simp only [lastOr_append, lastOr_cons, lastOr_nil, listIndexLoop, hn, hp,
        List.reverse_append, List.reverse_cons, List.reverse_nil, List.nil_append,
        List.singleton_append, List.getElem?_cons_succ]
      exact ih h1 k

/-- C10: on a well-formed list with the `n` nodes `ps`, for an index `i` of
type `long` above the least `long`: if `0 <= i < n`, `listIndex` returns the
node number `i` from the head; if `-n <= i <= -1`, it returns the node number
`n + i` from the head; for every other `i` it returns `NULL`. -/
theorem index_node (m : Mem) (l : list) (ps : List Nat) (i : Int) (h : IsList m l ps)
    (hlo : -2 ^ 63 < i) (hhi : i < 2 ^ 63) :
    (0 ≤ i → i < l.len →
      ∃ a, ps[i.toNat]? = some a ∧ listIndex m l i = some (some a)) ∧
    (-(l.len : Int) ≤ i → i ≤ -1 →
      ∃ a, ps[(l.len + i).toNat]? = some a ∧ listIndex m l i = some (some a)) ∧
    ((l.len : Int) ≤ i ∨ i < -(l.len : Int) → listIndex m l i = some none) := by
  obtain ⟨hseg, -, hhead, htail, hlen, -⟩ := h
  have hfwd : 0 ≤ i → listIndex m l i = some ps[i.toNat]? := by
    intro h0
    unfold listIndex
    rw [if_neg (by omega), hhead]
    exact listIndexLoop_next hseg _
  have hbwd : i < 0 → listIndex m l i = some ps.reverse[(-i - 1).toNat]? := by
    intro h0
    unfold listIndex
    rw [if_pos h0, htail]
    simp only
    rw [wrapLong_of_range (x := -i) (by omega) (by omega),
      wrapLong_of_range (x := -i - 1) (by omega) (by omega)]
    exact listIndexLoop_prev hseg _
  rw [hlen]
  refine ⟨fun h0 h1 => ?_, fun h0 h1 => ?_, fun h0 => ?_⟩
  · have hlt : i.toNat < ps.length := by omega
    exact ⟨ps[i.toNat], List.getElem?_eq_getElem hlt, by
      rw [hfwd h0, List.getElem?_eq_getElem hlt]⟩
  · have hlt : (↑ps.length + i).toNat < ps.length := by omega
    have hk : (-i - 1).toNat < ps.length := by omega
    refine ⟨ps[(↑ps.length + i).toNat], List.getElem?_eq_getElem hlt, ?_⟩
    rw [hbwd (by omega), List.getElem?_reverse hk]
    have e : ps.length - 1 - (-i - 1).toNat = (↑ps.length + i).toNat := by omega
    rw [e, List.getElem?_eq_getElem hlt]
  · by_cases h1 : 0 ≤ i
    · rw [hfwd h1, List.getElem?_eq_none (by omega)]
    · rw [hbwd (by omega), List.getElem?_eq_none (by rw [List.length_reverse]; omega)]

theorem index_node_witness :
    (0 ≤ (-2 : Int) → (-2 : Int) < exState.2.len →
      ∃ a, [4, 3, 1][(-2 : Int).toNat]? = some a ∧
        listIndex exState.1 exState.2 (-2) = some (some a)) ∧
    (-(exState.2.len : Int) ≤ -2 → (-2 : Int) ≤ -1 →
      ∃ a, [4, 3, 1][(exState.2.len + (-2 : Int)).toNat]? = some a ∧
        listIndex exState.1 exState.2 (-2) = some (some a)) ∧
    ((exState.2.len : Int) ≤ -2 ∨ (-2 : Int) < -(exState.2.len : Int) →
      listIndex exState.1 exState.2 (-2) = some none) :=
  index_node exState.1 exState.2 [4, 3, 1] (-2) (by decide) (by decide) (by decide)

/-! ## Allocation failure -/

theorem ok_of_bind {α : Type} {x : Option α} {f : α → Option Ret}
    (h : ∀ y r, f y = some r → r.ok = true) : ∀ r, x.bind f = some r → r.ok = true := by
  intro r hr
  obtain ⟨y, -, hy⟩ := Option.bind_eq_some.mp hr
  exact h y r hy

theorem ok_of_ite {c : Prop} [Decidable c] {x y : Option Ret}
    (hx : ∀ r, x = some r → r.ok = true) (hy : ∀ r, y = some r → r.ok = true) :
    ∀ r, (if c then x else y) = some r → r.ok = true := by
  split
  · exact hx
  · exact hy

theorem ok_of_some {m : Mem} {l : list} : ∀ r, some (Ret.mk m l true) = some r → r.ok = true := by
  intro r h
  cases h
  rfl

/-- C16: when `zmalloc` fails inside `listAddNodeHead`, `listAddNodeTail` or
`listInsertNode`, the function returns `NULL` and leaves the memory (every
node's links and value) and the list (head, tail, len, hooks) as they were, for
every list; when `zmalloc` succeeds and the function returns, it returns the
list it was given. -/
theorem alloc_failure_no_change (m : Mem) (l : list) (old_node : Option Nat) (value : Ptr)
    (after : Int) (a : Nat) :
    listAddNodeHead m l none value = some ⟨m, l, false⟩ ∧
    listAddNodeTail m l none value = some ⟨m, l, false⟩ ∧
    listInsertNode m l old_node value after none = some ⟨m, l, false⟩ ∧
    (∀ r, listAddNodeHead m l (some a) value = some r → r.ok = true) ∧
    (∀ r, listAddNodeTail m l (some a) value = some r → r.ok = true) ∧
    (∀ r, listInsertNode m l old_node value after (some a) = some r → r.ok = true) := by
  refine ⟨rfl, rfl, rfl, ?_, ?_, ?_⟩
  · simp only [listAddNodeHead, Option.bind_eq_bind, Option.pure_def]
    repeat' first
      | exact ok_of_some
      | apply ok_of_ite
      | (apply ok_of_bind; intro _)
  · simp only [listAddNodeTail, Option.bind_eq_bind, Option.pure_def]
    repeat' first
      | exact ok_of_some
      | apply ok_of_ite
      | (apply ok_of_bind; intro _)
  · simp only [listInsertNode, Option.bind_eq_bind, Option.pure_def]
    repeat' first
      | exact ok_of_some
      | apply ok_of_ite
      | (apply ok_of_bind; intro _)

theorem alloc_failure_no_change_witness :
    listAddNodeHead exState.1 exState.2 none (some 50) = some ⟨exState.1, exState.2, false⟩ ∧
    listAddNodeTail exState.1 exState.2 none (some 50) = some ⟨exState.1, exState.2, false⟩ ∧
    listInsertNode exState.1 exState.2 (some 3) (some 50) 1 none =
      some ⟨exState.1, exState.2, false⟩ ∧
    (∀ r, listAddNodeHead exState.1 exState.2 (some 2) (some 50) = some r → r.ok = true) ∧
    (∀ r, listAddNodeTail exState.1 exState.2 (some 2) (some 50) = some r → r.ok = true) ∧
    (∀ r, listInsertNode exState.1 exState.2 (some 3) (some 50) 1 (some 2) = some r →
      r.ok = true) :=
  alloc_failure_no_change exState.1 exState.2 (some 3) (some 50) 1 2

/-! ## Rotation -/

theorem rotate_index_shift (xs : List Nat) (t : Nat) (i : Nat) (hi : i < (xs ++ [t]).length) :
    (t :: xs)[(i + 1) % (xs ++ [t]).length]? = (xs ++ [t])[i]? := by
  rw [List.length_append, List.length_singleton] at hi ⊢
  by_cases h : i < xs.length
  · rw [Nat.mod_eq_of_lt (by omega), List.getElem?_cons_succ, List.getElem?_append_left h]
  · have e : i = xs.length := by omega
    subst e
    rw [Nat.mod_self, List.getElem?_append_right (le_refl _)]
    simp

/-- C14: on a well-formed list with the nodes `xs ++ [t]`, `xs` not empty, one
`listRotate` leaves a well-formed list with the nodes `t :: xs`: the former
tail is the head, its former predecessor is the tail, and the node at index `i`
is now at index `(i + 1) mod n`. On a list of at most one node nothing changes.
In both cases the values, `len` and the hooks are kept and no hook is called. -/
theorem rotate_once (m : Mem) (l : list) (ps : List Nat) (h : IsList m l ps) :
    (∀ xs t, ps = xs ++ [t] → xs ≠ [] →
      ∃ r, listRotate m l = some r ∧ IsList r.1 r.2 (t :: xs) ∧
        listNodes r.1 r.2 = t :: xs ∧
        r.2.head = l.tail ∧ getPrev m l.tail = some r.2.tail ∧
        (∀ i, i < ps.length → (t :: xs)[(i + 1) % ps.length]? = ps[i]?) ∧
        valuesOf r.1 ps = valuesOf m ps ∧
        r.2.len = l.len ∧ r.2.dup = l.dup ∧ r.2.free = l.free ∧ r.2.match_ = l.match_ ∧
        r.1.calls = m.calls) ∧
    (ps.length ≤ 1 → listRotate m l = some (m, l)) := by
  refine ⟨?_, fun hlen => listRotate_short h hlen⟩
  rintro xs t rfl hxs
  obtain ⟨r, hr, hl, hval, -, hcalls, hlst⟩ := listRotate_long h hxs
  have htail : l.tail = some t := by rw [h.2.2.2.1, lastOr_append]; rfl
  have ht := ((seg_append _ _ _ _ _).mp h.1).2
  rw [seg_cons] at ht
  refine ⟨r, hr, hl, hl.listNodes_eq, ?_, ?_, fun i hi => rotate_index_shift xs t i hi,
    valuesOf_congr fun b _ => hval b, ?_, ?_, ?_, ?_, hcalls⟩
  · rw [hlst, htail]
  · rw [hlst, htail]
    exact ht.1
  all_goals rw [hlst]

theorem rotate_once_witness :
    (∀ xs t, [4, 3, 1] = xs ++ [t] → xs ≠ [] →
      ∃ r, listRotate exState.1 exState.2 = some r ∧ IsList r.1 r.2 (t :: xs) ∧
        listNodes r.1 r.2 = t :: xs ∧
        r.2.head = exState.2.tail ∧ getPrev exState.1 exState.2.tail = some r.2.tail ∧
        (∀ i, i < [4, 3, 1].length → (t :: xs)[(i + 1) % [4, 3, 1].length]? = [4, 3, 1][i]?) ∧
        valuesOf r.1 [4, 3, 1] = valuesOf exState.1 [4, 3, 1] ∧
        r.2.len = exState.2.len ∧ r.2.dup = exState.2.dup ∧ r.2.free = exState.2.free ∧
        r.2.match_ = exState.2.match_ ∧ r.1.calls = exState.1.calls) ∧
    ([4, 3, 1].length ≤ 1 → listRotate exState.1 exState.2 = some exState) :=
  rotate_once exState.1 exState.2 [4, 3, 1] (by decide)

/-! ## Index of the last node, negative indices -/

/-- Nodes that do not overlap are fewer than `2 ^ 63`. -/
theorem placed_length_lt {ps : List Nat} (hp : Placed ps) : ps.length < 2 ^ 63 := by
  obtain ⟨hfit, hapart⟩ := hp
  have hnd : (ps.map fun a => a / NODE_SIZE).Nodup := by
    refine List.Pairwise.map _ ?_ hapart
    intro a b hab
    unfold NODE_SIZE at *
    omega
  have hsub : (ps.map fun a => a / NODE_SIZE).toFinset ⊆ Finset.range (ULONG / NODE_SIZE) := by
    intro q hq
    obtain ⟨a, ha, rfl⟩ := List.mem_map.mp (List.mem_toFinset.mp hq)
    have := hfit a ha
    rw [Finset.mem_range]
    unfold NODE_SIZE ULONG at *
    omega
  have hcard := Finset.card_le_card hsub
  rw [List.toFinset_card_of_nodup hnd, Finset.card_range, List.length_map] at hcard
  have : ULONG / NODE_SIZE < 2 ^ 63 := by unfold ULONG NODE_SIZE; norm_num
  omega

theorem lastOr_eq_getElem? (ps : List Nat) : lastOr ps none = ps[ps.length - 1]? := by
  rcases snoc_cases ps with rfl | ⟨xs, t, rfl⟩
  · rfl
  · rw [lastOr_append, List.length_append, List.length_singleton, Nat.add_sub_cancel,
      List.getElem?_append_right (le_refl _)]
    simp

/-- C11: on a well-formed list whose nodes are objects that do not overlap,
`listIndex(list, -1)` and `listIndex(list, len - 1)`, with `len - 1` computed
in `unsigned long` and converted to `long` (`-1` for the empty list), both
return the tail node, which is `NULL` when the list is empty. -/
theorem index_last_is_tail (m : Mem) (l : list) (ps : List Nat) (h : IsList m l ps)
    (hp : Placed ps) :
    listIndex m l (-1) = some l.tail ∧
    listIndex m l (ulongToLong ((l.len + ULONG - 1) % ULONG)) = some l.tail ∧
    (l.len = 0 → ulongToLong ((l.len + ULONG - 1) % ULONG) = -1 ∧ l.tail = none) := by
  have hlt := placed_length_lt hp
  obtain ⟨hseg, -, hhead, htail, hlen, -⟩ := h
  have hneg : listIndex m l (-1) = some l.tail := by
    unfold listIndex
    rw [if_pos (by decide)]
    simp only
    have e : (wrapLong (wrapLong (- -1) - 1)).toNat = 0 := by decide
    rw [e]
    rfl
  refine ⟨hneg, ?_, ?_⟩
  · by_cases h0 : ps.length = 0
    · have e : ulongToLong ((l.len + ULONG - 1) % ULONG) = -1 := by
        rw [hlen, h0]; decide
      rw [e]; exact hneg
    · have e : ulongToLong ((l.len + ULONG - 1) % ULONG) = ((ps.length - 1 : Nat) : Int) := by
        rw [hlen]
        unfold ulongToLong wrapLong ULONG
        omega
      rw [e]
      unfold listIndex
      rw [if_neg (by omega), hhead, Int.toNat_ofNat, listIndexLoop_next hseg, htail,
        lastOr_eq_getElem?]
  · intro h0
    rw [hlen] at h0
    have hps : ps = [] := List.length_eq_zero.mp h0
    subst hps
    refine ⟨?_, htail⟩
    rw [hlen]; decide

theorem index_last_is_tail_witness :
    listIndex exPlaced.1 exPlaced.2 (-1) = some exPlaced.2.tail ∧
    listIndex exPlaced.1 exPlaced.2 (ulongToLong ((exPlaced.2.len + ULONG - 1) % ULONG)) =
      some exPlaced.2.tail ∧
    (exPlaced.2.len = 0 →
      ulongToLong ((exPlaced.2.len + ULONG - 1) % ULONG) = -1 ∧ exPlaced.2.tail = none) :=
  index_last_is_tail exPlaced.1 exPlaced.2 [96, 32, 64] (by decide) (by decide)

/-- C20: for a negative `long` index `i` above the least `long`, the negation
and the subtraction in `(-i)-1` do not wrap and the count of steps is
`|i| - 1`; for the least `long`, with the negation wrapping, the count is the
greatest `long`, and `listIndex` returns `NULL` on every well-formed list whose
nodes are objects that do not overlap. -/
theorem index_negative_steps (m : Mem) (l : list) (ps : List Nat) (i : Int)
    (h : IsList m l ps) (hp : Placed ps) :
    (-2 ^ 63 < i → i < 0 →
      wrapLong (-i) = -i ∧ wrapLong (-i - 1) = -i - 1 ∧
      wrapLong (wrapLong (-i) - 1) = |i| - 1) ∧
    wrapLong (wrapLong (-(-2 ^ 63)) - 1) = 2 ^ 63 - 1 ∧
    listIndex m l (-2 ^ 63) = some none := by
  have hlt := placed_length_lt hp
  obtain ⟨hseg, -, -, htail, -, -⟩ := h
  refine ⟨fun hlo hneg => ?_, by decide, ?_⟩
  · have e1 := wrapLong_of_range (x := -i) (by omega) (by omega)
    have e2 := wrapLong_of_range (x := -i - 1) (by omega) (by omega)
    refine ⟨e1, e2, ?_⟩
    rw [e1, e2, abs_of_neg hneg]
  · unfold listIndex
    rw [if_pos (by decide), htail]
    simp only
    have e : (wrapLong (wrapLong (-(-2 ^ 63)) - 1)).toNat = 2 ^ 63 - 1 := by decide
    rw [e, listIndexLoop_prev hseg, List.getElem?_eq_none (by rw [List.length_reverse]; omega)]

theorem index_negative_steps_witness :
    (-2 ^ 63 < (-2 : Int) → (-2 : Int) < 0 →
      wrapLong (-(-2)) = -(-2) ∧ wrapLong (-(-2) - 1) = -(-2) - 1 ∧
      wrapLong (wrapLong (-(-2)) - 1) = |(-2 : Int)| - 1) ∧
    wrapLong (wrapLong (-(-2 ^ 63)) - 1) = 2 ^ 63 - 1 ∧
    listIndex exPlaced.1 exPlaced.2 (-2 ^ 63) = some none :=
  index_negative_steps exPlaced.1 exPlaced.2 [96, 32, 64] (-2) (by decide) (by decide)

/-! ## Nodes that do not overlap -/

theorem placed_cons {ps : List Nat} {a : Nat} (hp : Placed ps)
    (ha : zmallocApart ps (some a)) : Placed (a :: ps) := by
  refine ⟨?_, List.pairwise_cons.mpr ⟨ha.2, hp.2⟩⟩
  intro b hb
  rcases List.mem_cons.mp hb with rfl | hb
  · exact ha.1
  · exact hp.1 b hb

theorem placed_perm {ps qs : List Nat} (hperm : ps.Perm qs) (hp : Placed ps) : Placed qs := by
  refine ⟨fun b hb => hp.1 b (hperm.mem_iff.mpr hb), ?_⟩
  exact (hperm.pairwise_iff (fun {a b} hab => by
    rcases hab with h | h
    · exact Or.inr h
    · exact Or.inl h)).mp hp.2

theorem placed_sublist {ps qs : List Nat} (hsub : qs.Sublist ps) (hp : Placed ps) :
    Placed qs :=
  ⟨fun b hb => hp.1 b (hsub.subset hb), hp.2.sublist hsub⟩

/-- The nodes of the list stay apart under every allowed call, as long as the
block `zmalloc` returns overlaps none of them. -/
theorem step_placed {m : Mem} {l : list} {ps : List Nat} (h : IsList m l ps)
    (hp : Placed ps) (op : Op) (hadm : op.admissible m l)
    (hz : zmallocApart ps op.zmalloc) :
    ∃ s ps2, op.apply m l = some s ∧ IsList s.1 s.2 ps2 ∧ Placed ps2 := by
  cases op with
  | addHead z v =>
    cases z with
    | none => exact ⟨(m, l), ps, rfl, h, hp⟩
    | some a =>
      obtain ⟨r, hr, -, hl, -⟩ := listAddNodeHead_ok h hadm v
      exact ⟨(r.mem, r.lst), _, by simp [Op.apply, hr], hl, placed_cons hp hz⟩
  | addTail z v =>
    cases z with
    | none => exact ⟨(m, l), ps, rfl, h, hp⟩
    | some a =>
      obtain ⟨r, hr, -, hl, -⟩ := listAddNodeTail_ok h hadm v
      exact ⟨(r.mem, r.lst), _, by simp [Op.apply, hr], hl,
        placed_perm (List.perm_append_singleton a ps).symm (placed_cons hp hz)⟩
  | insert o v after z =>
    obtain ⟨hmem, hzok⟩ := hadm
    rw [h.listNodes_eq] at hmem
    obtain ⟨xs, ys, rfl⟩ := List.append_of_mem hmem
    cases z with
    | none => exact ⟨(m, l), _, rfl, h, hp⟩
    | some a =>
      have hpa := placed_cons hp hz
      by_cases hafter : after = 0
      · subst hafter
        obtain ⟨r, hr, -, hl, -⟩ := listInsertNode_before_ok h hzok v
        exact ⟨(r.mem, r.lst), _, by simp [Op.apply, hr], hl,
          placed_perm List.perm_middle.symm hpa⟩
      · obtain ⟨r, hr, -, hl, -⟩ := listInsertNode_after_ok h hzok v hafter
        refine ⟨(r.mem, r.lst), _, by simp [Op.apply, hr], hl, ?_⟩
        have e : xs ++ o :: a :: ys = (xs ++ [o]) ++ a :: ys := by simp
        have e2 : xs ++ o :: ys = (xs ++ [o]) ++ ys := by simp
        rw [e]
        rw [e2] at hpa
        exact placed_perm List.perm_middle.symm hpa
  | del o =>
    have hmem : o ∈ ps := by rw [← h.listNodes_eq]; exact hadm
    obtain ⟨xs, ys, rfl⟩ := List.append_of_mem hmem
    obtain ⟨r, hr, hl, -⟩ := listDelNode_ok h
    exact ⟨r, _, hr, hl,
      placed_sublist ((List.sublist_cons_self o ys).append_left xs) hp⟩
  | rotate =>
    rcases snoc_cases ps with rfl | ⟨xs, t, rfl⟩
    · exact ⟨(m, l), [], listRotate_short h (by simp), h, hp⟩
    · by_cases hxs : xs = []
      · subst hxs
        exact ⟨(m, l), _, listRotate_short h (by simp), h, hp⟩
      · obtain ⟨r, hr, hl, -⟩ := listRotate_long h hxs
        exact ⟨r, _, hr, hl, placed_perm (List.perm_append_singleton t xs) hp⟩
  | setDup f => exact ⟨_, ps, rfl, h, hp⟩
  | setFree f => exact ⟨_, ps, rfl, h, hp⟩
  | setMatch f => exact ⟨_, ps, rfl, h, hp⟩

/-! ## Repeated rotation -/

/-- One `listRotate` on a well-formed list, whatever its length: the node
sequence is rotated by one place to the right. -/
theorem listRotate_step {m : Mem} {l : list} {ps : List Nat} (h : IsList m l ps) :
    ∃ r, listRotate m l = some r ∧ IsList r.1 r.2 (ps.rotate (ps.length - 1)) ∧
      (∀ b, (r.1.nodes b).bind listNode.value = (m.nodes b).bind listNode.value) ∧
      (∀ b, b ∉ ps → r.1.nodes b = m.nodes b) ∧
      r.1.calls = m.calls ∧
      r.2.len = l.len ∧ r.2.dup = l.dup ∧ r.2.free = l.free ∧ r.2.match_ = l.match_ := by
  rcases snoc_cases ps with rfl | ⟨xs, t, rfl⟩
  · exact ⟨(m, l), listRotate_short h (by simp), by simpa using h, fun _ => rfl,
      fun _ _ => rfl, rfl, rfl, rfl, rfl, rfl⟩
  · by_cases hxs : xs = []
    · subst hxs
      exact ⟨(m, l), listRotate_short h (by simp), by simpa using h, fun _ => rfl,
        fun _ _ => rfl, rfl, rfl, rfl, rfl, rfl⟩
    · obtain ⟨r, hr, hl, hval, hframe, hcalls, hlst⟩ := listRotate_long h hxs
      have e : (xs ++ [t]).rotate ((xs ++ [t]).length - 1) = t :: xs := by
        rw [List.length_append, List.length_singleton, Nat.add_sub_cancel,
          List.rotate_append_length_eq]
        rfl
      rw [e]
      refine ⟨r, hr, hl, hval, hframe, hcalls, ?_, ?_, ?_, ?_⟩
      all_goals rw [hlst]

theorem listRotateN_spec {m : Mem} {l : list} {ps : List Nat} (h : IsList m l ps) (k : Nat) :
    ∃ r, listRotateN k m l = some r ∧ IsList r.1 r.2 (ps.rotate (k * (ps.length - 1))) ∧
      (∀ b, (r.1.nodes b).bind listNode.value = (m.nodes b).bind listNode.value) ∧
      (∀ b, b ∉ ps → r.1.nodes b = m.nodes b) ∧
      r.1.calls = m.calls ∧
      r.2.len = l.len ∧ r.2.dup = l.dup ∧ r.2.free = l.free ∧ r.2.match_ = l.match_ := by
  induction k generalizing m l ps with
  | zero =>
    exact ⟨(m, l), rfl, by simpa using h, fun _ => rfl, fun _ _ => rfl, rfl, rfl, rfl, rfl, rfl⟩
  | succ k ih =>
    obtain ⟨r1, hr1, hl1, hv1, hf1, hc1, hn1, hd1, hfr1, hm1⟩ := listRotate_step h
    obtain ⟨r2, hr2, hl2, hv2, hf2, hc2, hn2, hd2, hfr2, hm2⟩ := ih hl1
    refine ⟨r2, ?_, ?_, ?_, ?_, ?_, ?_, ?_, ?_, ?_⟩
    · simp only [listRotateN, hr1]
      exact hr2
    · rw [List.length_rotate, List.rotate_rotate] at hl2
      have e : ps.length - 1 + k * (ps.length - 1) = (k + 1) * (ps.length - 1) := by ring
      rw [e] at hl2
      exact hl2
    · intro b; rw [hv2 b, hv1 b]
    · intro b hb
      rw [hf2 b (by rw [List.mem_rotate]; exact hb), hf1 b hb]
    · rw [hc2, hc1]
    · rw [hn2, hn1]
    · rw [hd2, hd1]
    · rw [hfr2, hfr1]
    · rw [hm2, hm1]

/-- Two memories in which the same node sequence is a well-formed list with the
same values agree on these nodes. -/
theorem isList_nodes_eq {m m2 : Mem} {l l2 : list} {ps : List Nat} (h : IsList m l ps)
    (h2 : IsList m2 l2 ps)
    (hval : ∀ b, (m2.nodes b).bind listNode.value = (m.nodes b).bind listNode.value) :
    ∀ a ∈ ps, m2.nodes a = m.nodes a := by
  intro a ha
  obtain ⟨xs, ys, rfl⟩ := List.append_of_mem ha
  obtain ⟨n, hn, hp, hnx, -⟩ := (seg_cons_iff _ _ _ _ _).mp ((seg_append _ _ _ _ _).mp h.1).2
  obtain ⟨n2, hn2, hp2, hnx2, -⟩ :=
    (seg_cons_iff _ _ _ _ _).mp ((seg_append _ _ _ _ _).mp h2.1).2
  have hv := hval a
  rw [hn, hn2] at hv
  simp only [Option.some_bind] at hv
  rw [hn, hn2]
  cases n
  cases n2
  simp_all

/-- C15: on a well-formed list of `len` nodes (0 and 1 included), `len` calls
of `listRotate` lead back to the memory and the list they started from: same
head, tail, links, values, `len` and hooks. -/
theorem rotate_len_times_restores (m : Mem) (l : list) (ps : List Nat) (h : IsList m l ps) :
    listRotateN l.len m l = some (m, l) := by
  obtain ⟨r, hr, hl, hval, hframe, hcalls, hlen, hdup, hfree, hmatch⟩ :=
    listRotateN_spec h l.len
  have e : ps.rotate (l.len * (ps.length - 1)) = ps := by
    rw [h.2.2.2.2.1, List.rotate_length_mul]
  rw [e] at hl
  have hnodes : r.1.nodes = m.nodes := by
    funext a
    by_cases ha : a ∈ ps
    · exact isList_nodes_eq h hl hval a ha
    · exact hframe a ha
  have hm : r.1 = m := by
    cases hr1 : r.1
    cases m
    simp_all
  have hl2 : r.2 = l := by
    have e1 := hl.2.2.1
    have e2 := hl.2.2.2.1
    rw [← h.2.2.1] at e1
    rw [← h.2.2.2.1] at e2
    cases hr2 : r.2
    cases l
    simp_all
  rw [hr]
  cases r
  simp_all

theorem rotate_len_times_restores_witness :
    listRotateN exState.2.len exState.1 exState.2 = some (exState.1, exState.2) :=
  rotate_len_times_restores exState.1 exState.2 [4, 3, 1] (by decide)

/-! ## Teardown -/

theorem releaseCalls_cons (l : list) (v : Ptr) (vs : List Ptr) :
    releaseCalls l (v :: vs) = freeCalls l v ++ releaseCalls l vs := by
  unfold releaseCalls freeCalls
  cases l.free <;> rfl

/-- The loop of `listRelease` on a list segment that ends with `NULL`: every
node of the segment is freed, after the `free` hook was called on its value. -/
theorem listReleaseLoop_seg (l : list) {ps : List Nat} :
    ∀ {m : Mem} {prev : Option Nat}, Seg m ps prev none → ps.Nodup →
      ∃ m2, listReleaseLoop l ps.length m (firstOr ps none) = some m2 ∧
        (∀ b, m2.nodes b = if b ∈ ps then none else m.nodes b) ∧
        m2.calls = m.calls ++ releaseCalls l (valuesOf m ps) := by
  induction ps with
  | nil =>
    intro m prev _ _
    refine ⟨m, rfl, fun b => by simp, ?_⟩
    unfold releaseCalls valuesOf
    cases l.free <;> simp
  | cons a ps ih =>
    intro m prev h hnd
    obtain ⟨n, hn, -, h2, h3⟩ := (seg_cons_iff _ _ _ _ _).mp h
    have haps : a ∉ ps := (List.nodup_cons.mp hnd).1
    have h4 : Seg (zfree (callFree m l n.value) (some a)) ps (some a) none :=
      seg_zfree_frame haps (seg_callFree _ _ h3)
    obtain ⟨m2, hm2, hnodes, hcalls⟩ := ih h4 (List.nodup_cons.mp hnd).2
    refine ⟨m2, ?_, ?_, ?_⟩
    · rw [List.length_cons, firstOr_cons, listReleaseLoop]
      simp only [Option.bind_eq_bind, getNext_some, getValue_some, hn, Option.map_some',
        Option.some_bind, h2]
      exact hm2
    · intro b
      rw [hnodes b]
      by_cases hb : b = a
      · subst hb; simp [haps]
      · simp [hb]
    · rw [hcalls, zfree_calls, callFree_calls, valuesOf_cons, hn, releaseCalls_cons,
        List.append_assoc]
      have e : valuesOf (zfree (callFree m l n.value) (some a)) ps = valuesOf m ps := by
        refine valuesOf_congr fun b hb => ?_
        have : b ≠ a := by rintro rfl; exact haps hb
        simp [this]
      rw [e]
      rfl

theorem listRelease_ok {m : Mem} {l : list} {ps : List Nat} (h : IsList m l ps) :
    ∃ m2, listRelease m l = some m2 ∧
      (∀ b, m2.nodes b = if b ∈ ps then none else m.nodes b) ∧
      m2.calls = m.calls ++ releaseCalls l (valuesOf m ps) := by
  unfold listRelease
  rw [h.2.2.1, h.2.2.2.2.1]
  exact listReleaseLoop_seg l h.1 h.2.1

/-- C17: on a well-formed list with nodes `ps`, `listRelease` calls the `free`
hook, when it is set, once on the value of each node, from head to tail, and
makes no other call; when the hook is not set it makes no call. Every node of
the list is freed and no other node is touched. -/
theorem release_calls_free_in_order (m : Mem) (l : list) (ps : List Nat) (h : IsList m l ps) :
    ∃ m2, listRelease m l = some m2 ∧
      (∀ f, l.free = some f → m2.calls = m.calls ++ (valuesOf m ps).map fun v => (f, v)) ∧
      (l.free = none → m2.calls = m.calls) ∧
      (∀ a ∈ ps, m2.nodes a = none) ∧ (∀ b, b ∉ ps → m2.nodes b = m.nodes b) := by
  obtain ⟨m2, hm2, hnodes, hcalls⟩ := listRelease_ok h
  refine ⟨m2, hm2, ?_, ?_, ?_, ?_⟩
  · intro f hf
    rw [hcalls]
    simp [releaseCalls, hf]
  · intro hf
    rw [hcalls]
    simp [releaseCalls, hf]
  · intro a ha
    rw [hnodes a, if_pos ha]
  · intro b hb
    rw [hnodes b, if_neg hb]

theorem release_calls_free_in_order_witness :
    ∃ m2, listRelease exState.1 exState.2 = some m2 ∧
      (∀ f, exState.2.free = some f →
        m2.calls = exState.1.calls ++ (valuesOf exState.1 [4, 3, 1]).map fun v => (f, v)) ∧
      (exState.2.free = none → m2.calls = exState.1.calls) ∧
      (∀ a ∈ [4, 3, 1], m2.nodes a = none) ∧
      (∀ b, b ∉ [4, 3, 1] → m2.nodes b = exState.1.nodes b) :=
  release_calls_free_in_order exState.1 exState.2 [4, 3, 1] (by decide)

/-! ## Duplication -/

/-- One turn of the loop of `listDup` at an exhausted iterator. -/
theorem listDupLoop_done (fuel : Nat) (m : Mem) (copy : list) (zs : List (Option Nat)) :
    listDupLoop (fuel + 1) m copy ⟨none, AL_START_HEAD⟩ zs = some (m, some copy) := by
  simp [listDupLoop, listNext]

/-- One turn of the loop of `listDup` at a node. -/
theorem listDupLoop_node (fuel : Nat) {m : Mem} (copy : list) {p : Nat} {n : listNode}
    (hn : m.nodes p = some n) (zs : List (Option Nat)) :
    listDupLoop (fuel + 1) m copy ⟨some p, AL_START_HEAD⟩ zs =
      if dupFails copy n.value then
        (listRelease m copy).bind fun m2 => some (m2, none)
      else
        match zs with
        | [] => none
        | z :: zs =>
          (listAddNodeTail m copy z (dupValue copy n.value)).bind fun r =>
            if r.ok = false then (listRelease r.mem r.lst).bind fun m2 => some (m2, none)
            else listDupLoop fuel r.mem r.lst ⟨n.next, AL_START_HEAD⟩ zs := by
  rw [listDupLoop, listNext_head hn]
  simp only [Option.bind_eq_bind, Option.some_bind, ne_eq, reduceCtorEq, not_false_eq_true,
    if_true, getValue_some, hn, Option.map_some', Option.pure_def]
  cases hd : copy.dup with
  | none =>
    simp only [dupFails, dupValue, hd, Option.isSome_none, Bool.false_eq_true, false_and,
      if_false, Option.some_bind]
  | some f =>
    simp only [dupFails, dupValue, hd, Option.isSome_some, true_and, Option.some_bind]

theorem dupValue_congr {l l2 : list} (h : l2.dup = l.dup) (v : Ptr) :
    dupValue l2 v = dupValue l v := by
  unfold dupValue; rw [h]

theorem dupFails_congr {l l2 : list} (h : l2.dup = l.dup) (v : Ptr) :
    dupFails l2 v ↔ dupFails l v := by
  unfold dupFails; rw [h, dupValue_congr h]

/-- The loop of `listDup` over the first nodes `done` of the rest of the
source, when `zmalloc` answers with the fresh addresses `as` and the `dup` hook
fails on none of their values: the copy grows by the nodes `as`, which hold the
duplicated values, and nothing else changes. -/
theorem listDupLoop_prefix (done : List Nat) :
    ∀ {m : Mem} {copy : list} {cs as : List Nat} {prev : Option Nat} (rest : List Nat),
      Seg m (done ++ rest) prev none → IsList m copy cs →
      (∀ p ∈ done ++ rest, p ∉ cs) → as.length = done.length → as.Nodup →
      (∀ a ∈ as, zmallocOk m (some a)) →
      (∀ v ∈ valuesOf m done, ¬ dupFails copy v) →
      ∃ m2 copy2,
        (∀ fuel zs,
          listDupLoop (done.length + fuel) m copy
              ⟨firstOr (done ++ rest) none, AL_START_HEAD⟩ (as.map some ++ zs) =
            listDupLoop fuel m2 copy2 ⟨firstOr rest none, AL_START_HEAD⟩ zs) ∧
        IsList m2 copy2 (cs ++ as) ∧
        valuesOf m2 (cs ++ as) = valuesOf m cs ++ (valuesOf m done).map (dupValue copy) ∧
        (∀ b, b ∉ cs → b ∉ as → m2.nodes b = m.nodes b) ∧
        m2.calls = m.calls ∧
        copy2.dup = copy.dup ∧ copy2.free = copy.free ∧ copy2.match_ = copy.match_ := by
  induction done with
  | nil =>
    intro m copy cs as prev rest _ hcopy _ hlen _ _ _
    have has : as = [] := List.length_eq_zero.mp hlen
    subst has
    refine ⟨m, copy, fun fuel zs => ?_, by simpa using hcopy, by simp [valuesOf],
      fun _ _ _ => rfl, rfl, rfl, rfl, rfl⟩
    simp
  | cons p done ih =>
    intro m copy cs as prev rest hseg hcopy hdisj hlen hnd hfresh hdup
    cases as with
    | nil => simp at hlen
    | cons a as =>
      obtain ⟨n, hn, -, hnext, hseg2⟩ := (seg_cons_iff _ _ _ _ _).mp hseg
      have hza := hfresh a (List.mem_cons_self _ _)
      have hnf : ¬ dupFails copy n.value := by
        apply hdup
        rw [valuesOf_cons, hn]
        exact List.mem_cons_self _ _
      obtain ⟨r, hr, hok, hl, hna, hval, hframe, hcalls, hlst⟩ :=
        listAddNodeTail_ok hcopy hza (dupValue copy n.value)
      have hrd : r.lst.dup = copy.dup := by rw [hlst]
      have hkeep : ∀ b ∈ done ++ rest, r.mem.nodes b = m.nodes b := by
        intro b hb
        have hb2 : b ∈ p :: (done ++ rest) := List.mem_cons_of_mem _ hb
        obtain ⟨nb, hnb⟩ := seg_allocated hseg b hb2
        have hba : b ≠ a := by
          rintro rfl
          rw [hza.1] at hnb
          cases hnb
        exact hframe b hba (hdisj b hb2)
      have hseg3 : Seg r.mem (done ++ rest) (some p) none := seg_frame hkeep hseg2
      have hdisj3 : ∀ b ∈ done ++ rest, b ∉ cs ++ [a] := by
        intro b hb hmem
        have hb2 : b ∈ p :: (done ++ rest) := List.mem_cons_of_mem _ hb
        rcases List.mem_append.mp hmem with hc | hc
        · exact hdisj b hb2 hc
        · rw [List.mem_singleton.mp hc] at hb2
          obtain ⟨nb, hnb⟩ := seg_allocated hseg a hb2
          rw [hza.1] at hnb
          cases hnb
      have hfresh3 : ∀ b ∈ as, zmallocOk r.mem (some b) := by
        intro b hb
        have hzb := hfresh b (List.mem_cons_of_mem _ hb)
        have hba : b ≠ a := by
          rintro rfl
          exact (List.nodup_cons.mp hnd).1 hb
        have hbcs : b ∉ cs := hcopy.fresh_not_mem hzb.1
        exact ⟨by rw [hframe b hba hbcs]; exact hzb.1, hzb.2⟩
      have hvals3 : valuesOf r.mem done = valuesOf m done := by
        refine valuesOf_congr fun b hb => hval b ?_
        rintro rfl
        obtain ⟨nb, hnb⟩ := seg_allocated hseg b (by simp [hb])
        rw [hza.1] at hnb
        cases hnb
      have hdup3 : ∀ v ∈ valuesOf r.mem done, ¬ dupFails r.lst v := by
        intro v hv
        rw [dupFails_congr hrd]
        apply hdup
        rw [hvals3] at hv
        rw [valuesOf_cons]
        exact List.mem_cons_of_mem _ hv
      obtain ⟨m2, copy2, hloop, hl2, hvals2, hframe2, hcalls2, hd2, hf2, hm2⟩ :=
        ih rest hseg3 hl hdisj3 (by simpa using hlen) (List.nodup_cons.mp hnd).2 hfresh3 hdup3
      have hacs : a ∉ cs := hcopy.fresh_not_mem hza.1
      refine ⟨m2, copy2, fun fuel zs => ?_, ?_, ?_, ?_, ?_, ?_, ?_, ?_⟩
      · have e : (p :: done).length + fuel = (done.length + fuel) + 1 := by
          rw [List.length_cons]; omega
        rw [e, List.cons_append, firstOr_cons, listDupLoop_node _ copy hn, if_neg hnf]
        simp only [List.map_cons, List.cons_append, hr, Option.some_bind, hok,
          Bool.true_eq_false, if_false, hnext]
        exact hloop fuel zs
      · have e : cs ++ a :: as = (cs ++ [a]) ++ as := by simp
        rw [e]; exact hl2
      · have e : cs ++ a :: as = (cs ++ [a]) ++ as := by simp
        rw [e, hvals2, hvals3, valuesOf_append, valuesOf_cons, hna, valuesOf_keep hacs hval,
          valuesOf_cons, hn]
        simp [valuesOf, dupValue_congr hrd]
      · intro b hbcs hbas
        have hba : b ≠ a := fun e => hbas (by simp [e])
        have hbas2 : b ∉ as := fun e => hbas (by simp [e])
        rw [hframe2 b (by simp [hbcs, hba]) hbas2, hframe b hba hbcs]
      · rw [hcalls2, hcalls]
      · rw [hd2, hrd]
      · rw [hf2, hlst]
      · rw [hm2, hlst]

/-- The copy `listDup` starts from: empty, with the hooks of the source. -/
theorem listDup_some (fuel : Nat) (m : Mem) (orig : list) (c : Nat) (zs : List (Option Nat)) :
    listDup fuel m orig (some c) zs =
      listDupLoop fuel m
        { head := none, tail := none, dup := orig.dup, free := orig.free,
          match_ := orig.match_, len := 0 }
        ⟨orig.head, AL_START_HEAD⟩ zs := rfl

theorem isList_empty (m : Mem) (d : Option (Ptr → Ptr)) (f : Option Nat)
    (mt : Option (Ptr → Ptr → Int)) :
    IsList m { head := none, tail := none, dup := d, free := f, match_ := mt, len := 0 } [] :=
  ⟨trivial, List.nodup_nil, rfl, rfl, rfl, by simp⟩

/-- A successful `listDup`: the copy is a well-formed list of the fresh nodes
`as` holding the duplicated values; no other node changes. -/
theorem listDup_ok {m : Mem} {orig : list} {ps as : List Nat} (h : IsList m orig ps)
    {fuel : Nat} (hfuel : orig.len < fuel) (hlen : as.length = ps.length) (hnd : as.Nodup)
    (hfresh : ∀ a ∈ as, zmallocOk m (some a))
    (hdup : ∀ v ∈ valuesOf m ps, ¬ dupFails orig v) (c : Nat) (zs : List (Option Nat)) :
    ∃ m2 copy, listDup fuel m orig (some c) (as.map some ++ zs) = some (m2, some copy) ∧
      IsList m2 copy as ∧
      valuesOf m2 as = (valuesOf m ps).map (dupValue orig) ∧
      (∀ b, b ∉ as → m2.nodes b = m.nodes b) ∧
      m2.calls = m.calls ∧
      copy.dup = orig.dup ∧ copy.free = orig.free ∧ copy.match_ = orig.match_ := by
  have hseg : Seg m (ps ++ []) none none := by rw [List.append_nil]; exact h.1
  have hdup0 : ∀ v ∈ valuesOf m ps,
      ¬ dupFails { head := none, tail := none, dup := orig.dup, free := orig.free,
                   match_ := orig.match_, len := 0 } v := hdup
  obtain ⟨m2, copy2, hloop, hl2, hvals2, hframe2, hcalls2, hd2, hf2, hm2⟩ :=
    listDupLoop_prefix ps [] hseg (isList_empty m orig.dup orig.free orig.match_)
      (fun _ _ hc => by cases hc) hlen hnd hfresh hdup0
  obtain ⟨k, hk⟩ : ∃ k, fuel = ps.length + (k + 1) := by
    have := h.2.2.2.2.1
    exact ⟨fuel - ps.length - 1, by omega⟩
  refine ⟨m2, copy2, ?_, by simpa using hl2, by simpa [valuesOf] using hvals2,
    fun b hb => hframe2 b (by simp) hb, hcalls2, hd2, hf2, hm2⟩
  rw [listDup_some, hk, h.2.2.1]
  have e := hloop (k + 1) zs
  rw [List.append_nil] at e
  rw [e]
  exact listDupLoop_done k m2 copy2 zs

/-- The source of a duplication is the same well-formed list in every memory
that agrees with the old one on its nodes. -/
theorem IsList.frame {m m2 : Mem} {l : list} {ps : List Nat} (h : IsList m l ps)
    (hkeep : ∀ b ∈ ps, m2.nodes b = m.nodes b) : IsList m2 l ps :=
  ⟨seg_frame hkeep h.1, h.2.1, h.2.2.1, h.2.2.2.1, h.2.2.2.2.1, h.2.2.2.2.2⟩

/-- C12: on a well-formed list with nodes `ps` and values `vs`, when `zmalloc`
answers every call with a fresh address and the `dup` hook, if set, returns
`NULL` on no value of the list, `listDup` returns a well-formed list of as many
new nodes, with the three hooks of the source, whose values are, in the same
order, `dup(v)` for each `v` of `vs` when the `dup` hook is set and `vs`
itself otherwise. -/
theorem dup_copies_values (m : Mem) (orig : list) (ps as : List Nat) (fuel : Nat) (c : Nat)
    (zs : List (Option Nat)) (h : IsList m orig ps) (hfuel : orig.len < fuel)
    (hlen : as.length = ps.length) (hnd : as.Nodup)
    (hfresh : ∀ a ∈ as, zmallocOk m (some a))
    (hdup : ∀ v ∈ valuesOf m ps, ¬ dupFails orig v) :
    ∃ m2 copy, listDup fuel m orig (some c) (as.map some ++ zs) = some (m2, some copy) ∧
      IsList m2 copy as ∧ listNodes m2 copy = as ∧ (∀ a ∈ as, a ∉ ps) ∧
      copy.len = orig.len ∧
      copy.dup = orig.dup ∧ copy.free = orig.free ∧ copy.match_ = orig.match_ ∧
      (∀ f, orig.dup = some f → valuesOf m2 as = (valuesOf m ps).map f) ∧
      (orig.dup = none → valuesOf m2 as = valuesOf m ps) ∧
      m2.calls = m.calls := by
  obtain ⟨m2, copy, hres, hl, hvals, -, hcalls, hd, hf, hm⟩ :=
    listDup_ok h hfuel hlen hnd hfresh hdup c zs
  refine ⟨m2, copy, hres, hl, hl.listNodes_eq, fun a ha => h.fresh_not_mem (hfresh a ha).1,
    by rw [hl.2.2.2.2.1, h.2.2.2.2.1, hlen], hd, hf, hm, ?_, ?_, hcalls⟩
  · intro f hf2
    rw [hvals]
    refine List.map_congr_left fun v _ => ?_
    simp [dupValue, hf2]
  · intro hf2
    rw [hvals]
    have e : dupValue orig = id := by
      funext v
      simp [dupValue, hf2]
    rw [e, List.map_id]

theorem dup_copies_values_witness :
    ∃ m2 copy, listDup 4 exPlaced.1 exPlaced.2 (some 8) ([128, 160, 192].map some ++ []) =
        some (m2, some copy) ∧
      IsList m2 copy [128, 160, 192] ∧ listNodes m2 copy = [128, 160, 192] ∧
      (∀ a ∈ [128, 160, 192], a ∉ [96, 32, 64]) ∧
      copy.len = exPlaced.2.len ∧
      copy.dup = exPlaced.2.dup ∧ copy.free = exPlaced.2.free ∧
      copy.match_ = exPlaced.2.match_ ∧
      (∀ f, exPlaced.2.dup = some f →
        valuesOf m2 [128, 160, 192] = (valuesOf exPlaced.1 [96, 32, 64]).map f) ∧
      (exPlaced.2.dup = none → valuesOf m2 [128, 160, 192] = valuesOf exPlaced.1 [96, 32, 64]) ∧
      m2.calls = exPlaced.1.calls :=
  dup_copies_values exPlaced.1 exPlaced.2 [96, 32, 64] [128, 160, 192] 4 8 [] (by decide)
    (by decide) (by decide) (by decide) (by decide) (by decide)

/-- A `listDup` whose `dup` hook returns `NULL` on the value of the node `p`,
after the nodes `done` were copied: the copy is released and the memory is the
one before the call but for the record of the `free` hook calls. -/
theorem listDup_hook_failure {m : Mem} {orig : list} {done rest as : List Nat} {p : Nat}
    (h : IsList m orig (done ++ p :: rest)) {fuel : Nat} (hfuel : orig.len < fuel)
    (hlen : as.length = done.length) (hnd : as.Nodup)
    (hfresh : ∀ a ∈ as, zmallocOk m (some a))
    (hdup : ∀ v ∈ valuesOf m done, ¬ dupFails orig v)
    (hfail : dupFails orig ((m.nodes p).bind listNode.value)) (c : Nat)
    (zs : List (Option Nat)) :
    ∃ m2, listDup fuel m orig (some c) (as.map some ++ zs) = some (m2, none) ∧
      m2.nodes = m.nodes ∧
      m2.calls = m.calls ++ releaseCalls orig ((valuesOf m done).map (dupValue orig)) := by
  have hdup0 : ∀ v ∈ valuesOf m done,
      ¬ dupFails { head := none, tail := none, dup := orig.dup, free := orig.free,
                   match_ := orig.match_, len := 0 } v := hdup
  obtain ⟨m2, copy2, hloop, hl2, hvals2, hframe2, hcalls2, hd2, hf2, hm2⟩ :=
    listDupLoop_prefix done (p :: rest) h.1 (isList_empty m orig.dup orig.free orig.match_)
      (fun _ _ hc => by cases hc) hlen hnd hfresh hdup0
  rw [List.nil_append] at hl2 hvals2
  obtain ⟨k, hk⟩ : ∃ k, fuel = done.length + (k + 1) := by
    have := h.2.2.2.2.1
    rw [List.length_append, List.length_cons] at this
    exact ⟨fuel - done.length - 1, by omega⟩
  obtain ⟨n, hn⟩ := h.allocated p (by simp)
  have hpas : p ∉ as := by
    intro hp
    have := (hfresh p hp).1
    rw [hn] at this
    cases this
  have hn2 : m2.nodes p = some n := by rw [hframe2 p (by simp) hpas, hn]
  have hfail2 : dupFails copy2 n.value := by
    rw [dupFails_congr (show copy2.dup = orig.dup from hd2)]
    simpa [hn] using hfail
  obtain ⟨m3, hm3, hnodes3, hcalls3⟩ := listRelease_ok hl2
  refine ⟨m3, ?_, ?_, ?_⟩
  · rw [listDup_some, hk, h.2.2.1, hloop (k + 1) zs, firstOr_cons,
      listDupLoop_node k copy2 hn2, if_pos hfail2, hm3]
    rfl
  · funext b
    rw [hnodes3 b]
    by_cases hb : b ∈ as
    · rw [if_pos hb, (hfresh b hb).1]
    · rw [if_neg hb, hframe2 b (by simp) hb]
  · rw [hcalls3, hcalls2, hvals2]
    simp [releaseCalls, valuesOf, hf2]
    rfl

/-- C13: on a well-formed list with nodes `done ++ p :: rest` whose `dup` hook
returns `NULL` first on the value of `p` (the value number `done.length + 1`),
`listDup` returns `NULL`; the node memory is as before the call, so no node of
a copy is left and the source has its nodes, links, `len` and hooks; and the
`free` hook, when set, was called once on each of the values that the `dup`
hook returned for the nodes `done`, in order, and on nothing else. -/
theorem dup_hook_failure_releases_copy (m : Mem) (orig : list) (done rest as : List Nat)
    (p : Nat) (fuel : Nat) (c : Nat) (zs : List (Option Nat))
    (h : IsList m orig (done ++ p :: rest)) (hfuel : orig.len < fuel)
    (hlen : as.length = done.length) (hnd : as.Nodup)
    (hfresh : ∀ a ∈ as, zmallocOk m (some a))
    (hdup : ∀ v ∈ valuesOf m done, ¬ dupFails orig v)
    (hfail : dupFails orig ((m.nodes p).bind listNode.value)) :
    ∃ m2, listDup fuel m orig (some c) (as.map some ++ zs) = some (m2, none) ∧
      m2.nodes = m.nodes ∧ IsList m2 orig (done ++ p :: rest) ∧
      listNodes m2 orig = done ++ p :: rest ∧
      (∀ f, orig.free = some f →
        m2.calls = m.calls ++ ((valuesOf m done).map (dupValue orig)).map fun v => (f, v)) ∧
      (orig.free = none → m2.calls = m.calls) := by
  obtain ⟨m2, hres, hnodes, hcalls⟩ :=
    listDup_hook_failure h hfuel hlen hnd hfresh hdup hfail c zs
  have hl : IsList m2 orig (done ++ p :: rest) := h.frame fun b _ => by rw [hnodes]
  refine ⟨m2, hres, hnodes, hl, hl.listNodes_eq, ?_, ?_⟩
  · intro f hf
    rw [hcalls]
    simp [releaseCalls, hf]
  · intro hf
    rw [hcalls]
    simp [releaseCalls, hf]

theorem dup_hook_failure_releases_copy_witness :
    ∃ m2, listDup 4 exPlaced.1 exDupList (some 8) ([128].map some ++ [some 160, some 192]) =
        some (m2, none) ∧
      m2.nodes = exPlaced.1.nodes ∧ IsList m2 exDupList ([96] ++ 32 :: [64]) ∧
      listNodes m2 exDupList = [96] ++ 32 :: [64] ∧
      (∀ f, exDupList.free = some f →
        m2.calls = exPlaced.1.calls ++
          ((valuesOf exPlaced.1 [96]).map (dupValue exDupList)).map fun v => (f, v)) ∧
      (exDupList.free = none → m2.calls = exPlaced.1.calls) :=
  dup_hook_failure_releases_copy exPlaced.1 exDupList [96] [64] [128] 32 4 8
    [some 160, some 192] (by decide) (by decide) (by decide) (by decide) (by decide)
    (by decide) (by decide)

/-- A `listDup` in which `zmalloc` fails for the copy of the node `p`, after
the nodes `done` were copied: the copy is released and the memory is the one
before the call but for the record of the `free` hook calls, which holds one
call for each value stored in the copy. -/
theorem listDup_alloc_failure {m : Mem} {orig : list} {done rest as : List Nat} {p : Nat}
    (h : IsList m orig (done ++ p :: rest)) {fuel : Nat} (hfuel : orig.len < fuel)
    (hlen : as.length = done.length) (hnd : as.Nodup)
    (hfresh : ∀ a ∈ as, zmallocOk m (some a))
    (hdup : ∀ v ∈ valuesOf m (done ++ [p]), ¬ dupFails orig v) (c : Nat)
    (zs : List (Option Nat)) :
    ∃ m2, listDup fuel m orig (some c) (as.map some ++ none :: zs) = some (m2, none) ∧
      m2.nodes = m.nodes ∧
      m2.calls = m.calls ++ releaseCalls orig ((valuesOf m done).map (dupValue orig)) := by
  have hdup0 : ∀ v ∈ valuesOf m done,
      ¬ dupFails { head := none, tail := none, dup := orig.dup, free := orig.free,
                   match_ := orig.match_, len := 0 } v := by
    intro v hv
    exact hdup v (by rw [valuesOf_append]; exact List.mem_append_left _ hv)
  obtain ⟨m2, copy2, hloop, hl2, hvals2, hframe2, hcalls2, hd2, hf2, hm2⟩ :=
    listDupLoop_prefix done (p :: rest) h.1 (isList_empty m orig.dup orig.free orig.match_)
      (fun _ _ hc => by cases hc) hlen hnd hfresh hdup0
  rw [List.nil_append] at hl2 hvals2
  obtain ⟨k, hk⟩ : ∃ k, fuel = done.length + (k + 1) := by
    have := h.2.2.2.2.1
    rw [List.length_append, List.length_cons] at this
    exact ⟨fuel - done.length - 1, by omega⟩
  obtain ⟨n, hn⟩ := h.allocated p (by simp)
  have hpas : p ∉ as := by
    intro hp
    have := (hfresh p hp).1
    rw [hn] at this
    cases this
  have hn2 : m2.nodes p = some n := by rw [hframe2 p (by simp) hpas, hn]
  have hnf : ¬ dupFails copy2 n.value := by
    rw [dupFails_congr (show copy2.dup = orig.dup from hd2)]
    apply hdup
    rw [valuesOf_append, valuesOf_cons, hn]
    simp
  obtain ⟨m3, hm3, hnodes3, hcalls3⟩ := listRelease_ok hl2
  refine ⟨m3, ?_, ?_, ?_⟩
  · rw [listDup_some, hk, h.2.2.1, hloop (k + 1) (none :: zs), firstOr_cons,
      listDupLoop_node k copy2 hn2, if_neg hnf]
    simp only [listAddNodeTail, Option.some_bind, if_true, hm3]
  · funext b
    rw [hnodes3 b]
    by_cases hb : b ∈ as
    · rw [if_pos hb, (hfresh b hb).1]
    · rw [if_neg hb, hframe2 b (by simp) hb]
  · rw [hcalls3, hcalls2, hvals2]
    simp [releaseCalls, valuesOf, hf2]
    rfl

/-- A call allowed on a well-formed list only writes to the nodes of the list
and to the node it allocates. -/
theorem step_frame {m : Mem} {l : list} {cs : List Nat} (h : IsList m l cs) (op : Op)
    (hadm : op.admissible m l) :
    ∃ s, op.apply m l = some s ∧
      ∀ b, b ∉ cs → m.nodes b ≠ none → s.1.nodes b = m.nodes b := by
  have hne : ∀ {a b : Nat}, m.nodes a = none → m.nodes b ≠ none → b ≠ a := by
    intro a b ha hb e
    rw [e] at hb
    exact hb ha
  cases op with
  | addHead z v =>
    cases z with
    | none => exact ⟨(m, l), rfl, fun _ _ _ => rfl⟩
    | some a =>
      obtain ⟨r, hr, -, -, -, -, hframe, -⟩ := listAddNodeHead_ok h hadm v
      exact ⟨(r.mem, r.lst), by simp [Op.apply, hr],
        fun b hb hal => hframe b (hne hadm.1 hal) hb⟩
  | addTail z v =>
    cases z with
    | none => exact ⟨(m, l), rfl, fun _ _ _ => rfl⟩
    | some a =>
      obtain ⟨r, hr, -, -, -, -, hframe, -⟩ := listAddNodeTail_ok h hadm v
      exact ⟨(r.mem, r.lst), by simp [Op.apply, hr],
        fun b hb hal => hframe b (hne hadm.1 hal) hb⟩
  | insert o v after z =>
    obtain ⟨hmem, hz⟩ := hadm
    rw [h.listNodes_eq] at hmem
    obtain ⟨xs, ys, rfl⟩ := List.append_of_mem hmem
    cases z with
    | none => exact ⟨(m, l), rfl, fun _ _ _ => rfl⟩
    | some a =>
      by_cases hafter : after = 0
      · subst hafter
        obtain ⟨r, hr, -, -, -, -, hframe, -⟩ := listInsertNode_before_ok h hz v
        exact ⟨(r.mem, r.lst), by simp [Op.apply, hr],
          fun b hb hal => hframe b (hne hz.1 hal) hb⟩
      · obtain ⟨r, hr, -, -, -, -, hframe, -⟩ := listInsertNode_after_ok h hz v hafter
        exact ⟨(r.mem, r.lst), by simp [Op.apply, hr],
          fun b hb hal => hframe b (hne hz.1 hal) hb⟩
  | del o =>
    have hmem : o ∈ cs := by rw [← h.listNodes_eq]; exact hadm
    obtain ⟨xs, ys, rfl⟩ := List.append_of_mem hmem
    obtain ⟨r, hr, -, -, -, hframe, -⟩ := listDelNode_ok h
    exact ⟨r, hr, fun b hb _ => hframe b hb⟩
  | rotate =>
    rcases snoc_cases cs with rfl | ⟨xs, t, rfl⟩
    · exact ⟨(m, l), listRotate_short h (by simp), fun _ _ _ => rfl⟩
    · by_cases hxs : xs = []
      · subst hxs
        exact ⟨(m, l), listRotate_short h (by simp), fun _ _ _ => rfl⟩
      · obtain ⟨r, hr, -, -, hframe, -⟩ := listRotate_long h hxs
        exact ⟨r, hr, fun b hb _ => hframe b hb⟩
  | setDup f => exact ⟨_, rfl, fun _ _ _ => rfl⟩
  | setFree f => exact ⟨_, rfl, fun _ _ _ => rfl⟩
  | setMatch f => exact ⟨_, rfl, fun _ _ _ => rfl⟩

/-- C18: after a successful `listDup` of a well-formed list with nodes `ps`,
the nodes of the copy are none of the nodes of the source, and any call of
`listAddNodeHead`, `listAddNodeTail`, `listInsertNode`, `listDelNode` or
`listRotate` allowed on the copy leaves every node of the source (links and
value) as it was before the duplication: the source list, with its head, tail
and `len`, is still the well-formed list of the nodes `ps` with the same
values. -/
theorem dup_copy_independent (m : Mem) (orig : list) (ps as : List Nat) (fuel : Nat) (c : Nat)
    (zs : List (Option Nat)) (h : IsList m orig ps) (hfuel : orig.len < fuel)
    (hlen : as.length = ps.length) (hnd : as.Nodup)
    (hfresh : ∀ a ∈ as, zmallocOk m (some a))
    (hdup : ∀ v ∈ valuesOf m ps, ¬ dupFails orig v) :
    ∃ m2 copy, listDup fuel m orig (some c) (as.map some ++ zs) = some (m2, some copy) ∧
      IsList m2 orig ps ∧
      (∀ a ∈ listNodes m2 copy, a ∉ listNodes m2 orig) ∧
      ∀ op : Op, op.admissible m2 copy →
        ∃ s, op.apply m2 copy = some s ∧
          IsList s.1 orig ps ∧ listNodes s.1 orig = ps ∧
          (∀ p ∈ ps, s.1.nodes p = m.nodes p) ∧ valuesOf s.1 ps = valuesOf m ps := by
  obtain ⟨m2, copy, hres, hl, -, hframe, -⟩ := listDup_ok h hfuel hlen hnd hfresh hdup c zs
  have hnot : ∀ p ∈ ps, p ∉ as := by
    intro p hp hpa
    exact h.fresh_not_mem (hfresh p hpa).1 hp
  have hkeep : ∀ p ∈ ps, m2.nodes p = m.nodes p := fun p hp => hframe p (hnot p hp)
  have ho2 : IsList m2 orig ps := h.frame hkeep
  refine ⟨m2, copy, hres, ho2, ?_, fun op hadm => ?_⟩
  · rw [hl.listNodes_eq, ho2.listNodes_eq]
    intro a ha hp
    exact hnot a hp ha
  · obtain ⟨s, hs, hsf⟩ := step_frame hl op hadm
    have hkeep2 : ∀ p ∈ ps, s.1.nodes p = m.nodes p := by
      intro p hp
      obtain ⟨n, hn⟩ := ho2.allocated p hp
      rw [hsf p (hnot p hp) (by rw [hn]; simp), hkeep p hp]
    have ho3 : IsList s.1 orig ps := h.frame hkeep2
    exact ⟨s, hs, ho3, ho3.listNodes_eq, hkeep2,
      valuesOf_congr fun b hb => by rw [hkeep2 b hb]⟩

theorem dup_copy_independent_witness :
    ∃ m2 copy, listDup 4 exPlaced.1 exPlaced.2 (some 8) ([128, 160, 192].map some ++ []) =
        some (m2, some copy) ∧
      IsList m2 exPlaced.2 [96, 32, 64] ∧
      (∀ a ∈ listNodes m2 copy, a ∉ listNodes m2 exPlaced.2) ∧
      ∀ op : Op, op.admissible m2 copy →
        ∃ s, op.apply m2 copy = some s ∧
          IsList s.1 exPlaced.2 [96, 32, 64] ∧ listNodes s.1 exPlaced.2 = [96, 32, 64] ∧
          (∀ p ∈ [96, 32, 64], s.1.nodes p = exPlaced.1.nodes p) ∧
          valuesOf s.1 [96, 32, 64] = valuesOf exPlaced.1 [96, 32, 64] :=
  dup_copy_independent exPlaced.1 exPlaced.2 [96, 32, 64] [128, 160, 192] 4 8 [] (by decide)
    (by decide) (by decide) (by decide) (by decide) (by decide)

/-- C19: `listDup` of the list of nodes 96, 32, 64 holding the values 30, 10,
20, with a `free` hook and no `dup` hook, when `zmalloc` fails for the second
node of the copy: the function returns `NULL` and the nodes of the source are
as before, but the `free` hook was called on 30, the value the first node of
the source still holds. -/
theorem dup_alloc_failure_frees_source_value :
    IsList exPlaced.1 exPlaced.2 [96, 32, 64] ∧
    valuesOf exPlaced.1 [96, 32, 64] = [some 30, some 10, some 20] ∧
    exPlaced.2.dup.isSome = false ∧ exPlaced.2.free = some 77 ∧ exPlaced.1.calls = [] ∧
    (listDup 4 exPlaced.1 exPlaced.2 (some 8) [some 128, none]).map
        (fun r => (r.2.isSome, r.1.calls, [96, 32, 64, 128].map r.1.nodes)) =
      some (false, [(77, some 30)], [96, 32, 64, 128].map exPlaced.1.nodes) := by
  decide

end Adlist
